import Mathlib

/-!
A shallow embedding of the JUCE `TextLayout` engine (`juce_TextLayout.cpp`):
attribute resolution (`TokenList::addTextRuns`), tokenization
(`TokenList::appendText`), greedy line breaking (`TokenList::layoutRuns`),
run building (`TokenList::createLayout`), justification and width
normalisation (`TextLayout::recalculateWidth`), line bounds
(`TextLayout::Line::getLineBoundsX`), and the balancer
(`TextLayout::createLayoutWithBalancedLineLengths`).

Machine floats are modelled as rationals, `int` as `Int` (character
positions, which are nonnegative counters in the source, as `Nat`).
External collaborators (font metrics, glyph shaping) are a `FontProvider`
parameter, mirroring the interfaces the source consumes.
-/

namespace Juce

/-- ARGB colour value, as JUCE `Colour`. -/
abbrev Colour := Nat

/-- Default colour 0xff000000 used by `Run` and `FontAndColour`. -/
def blackColour : Colour := 0xff000000

/-- A font identity. Metrics are supplied externally by `FontProvider`,
mirroring the font-metrics interface consumed by the source. -/
structure Font where
  id : Nat
deriving DecidableEq

/-- The `Font defaultFont` default-constructed in `addTextRuns`. -/
def defaultFont : Font := ⟨0⟩

/-- External font-metrics / shaping provider: `getStringWidth`,
`roundToInt (getHeight())`, `getAscent`, `getDescent`, `getGlyphPositions`
(glyph codes plus x-offsets, the offset list carrying one extra sentinel
entry giving the end-of-text x position). -/
structure FontProvider where
  stringWidth : Font → List Char → Int
  heightInt : Font → Int
  ascent : Font → ℚ
  descent : Font → ℚ
  glyphPositions : Font → List Char → List Int × List ℚ

/-- `AttributedString::ReadingDirection`. -/
inductive ReadingDirection where
  | natural
  | leftToRight
  | rightToLeft
deriving DecidableEq

/-- One `AttributedString::Attribute`: a character range with an optional
font and an optional colour. -/
structure AttrEntry where
  rstart : Int
  rstop : Int
  font : Option Font
  colour : Option Colour
deriving DecidableEq

/-- The attributed-string input: text, attribute list, justification flags
and reading direction. -/
structure AttrString where
  text : List Char
  attributes : List AttrEntry
  justification : Nat
  readingDirection : ReadingDirection
deriving DecidableEq

/-- `CharacterFunctions::isWhitespace`: a space, or a character with code
in [9, 13]. -/
def juceIsWhitespace (c : Char) : Bool :=
  decide (c = ' ' ∨ (9 ≤ c.toNat ∧ c.toNat ≤ 13))

/-- `TokenList::getCharacterType`: 0 for a line break, 2 for whitespace,
1 for a word character. -/
def getCharacterType (c : Char) : Nat :=
  if c = '\r' ∨ c = '\n' then 0
  else if juceIsWhitespace c then 2 else 1

/-- `String::trimEnd`: remove trailing whitespace. -/
def trimEnd (s : List Char) : List Char :=
  (s.reverse.dropWhile juceIsWhitespace).reverse

/-- `TextLayoutHelpers::FontAndColour` (the pointer-vs-value comparison in
its `operator!=` collapses to value inequality of the pair). -/
structure FAC where
  font : Font
  colour : Colour
deriving DecidableEq

/-- The initial `FontAndColour` value (colour 0xff000000); its font slot is
never compared at `i = 0`, mirroring the `nullptr` initialisation. -/
def initFAC : FAC := ⟨defaultFont, blackColour⟩

/-- The effective font-and-colour of character `i`: scan every attribute in
order, later matching attributes overwriting the font and the colour
independently, starting from the default font and black. -/
def resolveFAC (text : AttrString) (i : Nat) : FAC :=
  text.attributes.foldl (fun fac a =>
    let fac1 := match a.font with
      | some f => if a.rstart ≤ (i : Int) ∧ (i : Int) < a.rstop then { fac with font := f } else fac
      | none => fac
    match a.colour with
      | some col => if a.rstart ≤ (i : Int) ∧ (i : Int) < a.rstop then { fac1 with colour := col } else fac1
      | none => fac1)
    initFAC

/-- `TextLayoutHelpers::RunAttribute`: a style with the character range it
covers. -/
structure RunAttr where
  fac : FAC
  rstart : Nat
  rstop : Nat
deriving DecidableEq

/-- The attribute-scanning loop of `TokenList::addTextRuns`. The counter
`k` is the number of characters still to scan, so the current index is
`n - k`; a run attribute is emitted at index `i` when `i > 0` and the
style changed or `i` is the last index, carrying the previous style and
extending to `i`, or to `i + 1 = n` at the last index. -/
def ataux (text : AttrString) (n : Nat) : Nat → Nat → FAC → List RunAttr
  | 0, _, _ => []
  | k + 1, rangeStart, lastFAC =>
    let i := n - (k + 1)
    let newFAC := resolveFAC text i
    if 0 < i ∧ (newFAC ≠ lastFAC ∨ i = n - 1) then
      ⟨lastFAC, rangeStart, if i < n - 1 then i else i + 1⟩ :: ataux text n k i newFAC
    else
      ataux text n k rangeStart newFAC

/-- The style ranges produced by `TokenList::addTextRuns` before
tokenization. -/
def runAttributesOf (text : AttrString) : List RunAttr :=
  ataux text text.text.length text.text.length 0 initFAC

/-- `TextLayoutHelpers::Token`: a maximal same-class, same-style chunk of
text, its measured width and rounded font height, and its class flags. -/
structure Token where
  text : List Char
  font : Font
  colour : Colour
  width : Int
  height : Int
  isWhitespace : Bool
  isNewLine : Bool
deriving DecidableEq

/-- Token construction: width from `getStringWidth`, height from
`roundToInt (getHeight())`, `isNewLine` when the text contains a carriage
return or line feed. -/
def mkTok (P : FontProvider) (f : Font) (col : Colour) (s : List Char) (ws : Bool) : Token :=
  ⟨s, f, col, P.stringWidth f s, P.heightInt f, ws, decide ('\n' ∈ s ∨ '\r' ∈ s)⟩

/-- The `if (c == '\r' && *t == '\n') currentString += t.getAndAdvance()`
step of `appendText`: the new current string started by `ch` (absorbing an
immediately following `'\n'` after a `'\r'`) and the remaining input. -/
def absorbCRLF (ch : Char) (rest : List Char) : List Char × List Char :=
  match rest with
  | [] => ([ch], [])
  | c2 :: rest2 => if ch = '\r' ∧ c2 = '\n' then ([ch, c2], rest2) else ([ch], c2 :: rest2)

/-- The character loop of `TokenList::appendText`: `cur` is the token text
being accumulated and `lt` the class of its characters. A class change or
a line-break character flushes `cur` (whitespace flag set for class 2 or
0), and a `"\r\n"` pair is absorbed into a single token; at the end of the
input, `cur` is flushed with the whitespace flag set only for class 2.
The `fuel` counter only drives the recursion; it never runs out when it
starts at least one above the input length, since every step consumes at
least one character. -/
def appendTextLoop (P : FontProvider) (f : Font) (col : Colour) :
    Nat → List Char → List Char → Nat → List Token
  | 0, _, _, _ => []
  | _ + 1, [], cur, lt =>
    if cur = [] then [] else [mkTok P f col cur (decide (lt = 2))]
  | fuel + 1, ch :: rest, cur, lt =>
    let ct := getCharacterType ch
    if ct = 0 ∨ ct ≠ lt then
      (if cur = [] then [] else [mkTok P f col cur (decide (lt = 2 ∨ lt = 0))]) ++
      appendTextLoop P f col fuel (absorbCRLF ch rest).2 (absorbCRLF ch rest).1 ct
    else
      appendTextLoop P f col fuel rest (cur ++ [ch]) ct

/-- `TokenList::appendText` on one style range's substring. -/
def appendTextTokens (P : FontProvider) (s : List Char) (f : Font) (col : Colour) : List Token :=
  appendTextLoop P f col (s.length + 1) s [] 0

/-- `text.getText().substring (start, stop)`. -/
def substr (s : List Char) (a b : Nat) : List Char :=
  (s.drop a).take (b - a)

/-- The full token list built by `TokenList::addTextRuns`: each style range
is tokenized with its font and colour. -/
def tokensOf (P : FontProvider) (text : AttrString) : List Token :=
  (runAttributesOf text).flatMap fun ra =>
    appendTextTokens P (substr text.text ra.rstart ra.rstop) ra.fac.font ra.fac.colour

/-- A token after `TokenList::layoutRuns`: its pre-wrap position and its
assigned line number. -/
structure PlacedToken where
  tok : Token
  x : Int
  y : Int
  line : Nat
deriving DecidableEq

/-- `TokenList::layoutRuns`: greedy line breaking. Each token is placed at
the running cursor; after placing token `t`, if `t` is a line break, or
the next token is not whitespace and would overflow `maxW`, the line is
closed (cursor reset, y advanced by the line height, line counter
incremented). Returns the placed tokens and `totalLines`. -/
def layoutRunsAux (maxW : Int) : List Token → Nat → Int → Int → Int → List PlacedToken × Nat
  | [], line, _, _, _ => ([], line + 1)
  | [t], line, x, y, _ => ([⟨t, x, y, line⟩], line + 1)
  | t :: next :: rest, line, x, y, h =>
    let x1 := x + t.width
    let h1 := max h t.height
    if t.isNewLine || (!next.isWhitespace && decide (maxW < x1 + next.width)) then
      let r := layoutRunsAux maxW (next :: rest) (line + 1) 0 (y + h1) 0
      (⟨t, x, y, line⟩ :: r.1, r.2)
    else
      let r := layoutRunsAux maxW (next :: rest) line x1 y h1
      (⟨t, x, y, line⟩ :: r.1, r.2)

/-- `layoutRuns` entry point (cursor and line counter start at zero). -/
def layoutRuns (maxW : Int) (toks : List Token) : List PlacedToken × Nat :=
  layoutRunsAux maxW toks 0 0 0 0

/-- `TextLayout::Glyph`: code, anchor relative to the line origin, and
advance width. -/
structure Glyph where
  glyphCode : Int
  anchorX : ℚ
  anchorY : ℚ
  width : ℚ
deriving DecidableEq

/-- `TextLayout::Run`: glyphs sharing one font and colour, with the
character range they cover. -/
structure Run where
  font : Font
  colour : Colour
  glyphs : List Glyph
  stringRange : Nat × Nat
deriving DecidableEq

/-- `TextLayout::Line`: runs sharing one baseline origin, with ascent,
descent and the character range covered. (`leading` is never written by
this code and is omitted.) -/
structure Line where
  stringRange : Nat × Nat
  originX : ℚ
  originY : ℚ
  ascent : ℚ
  descent : ℚ
  runs : List Run
deriving DecidableEq

/-- `TextLayout`: the lines, the width field and the justification flags. -/
structure TextLayoutS where
  lines : List Line
  width : ℚ
  justification : Nat
deriving DecidableEq

/-- A default-constructed `TextLayout` (width 0, justification topLeft = 9,
no lines). -/
def emptyLayout : TextLayoutS := ⟨[], 0, 9⟩

/-- A default-constructed `TextLayout::Line`. -/
def emptyLine : Line := ⟨(0, 0), 0, 0, 0, 0, []⟩

/-- The per-line accumulator held by `TokenList::createLayout` while a line
is being built (the fields of the `Line` under construction other than its
string range, which is assigned when the line is closed). -/
structure LineAcc where
  originX : ℚ := 0
  originY : ℚ := 0
  ascent : ℚ := 0
  descent : ℚ := 0
  runs : List Run := []
deriving DecidableEq

/-- The loop state of `TokenList::createLayout`: the character position
counters, the provisional current run (its accumulated glyphs) and current
line, and the `needToSetLineOrigin` flag. -/
structure BSt where
  cp : Nat
  lineStart : Nat
  runStart : Nat
  curRun : Option (List Glyph)
  curLine : Option LineAcc
  needOrigin : Bool
deriving DecidableEq

/-- The initial builder state. -/
def initBSt : BSt := ⟨0, 0, 0, none, none, true⟩

/-- The glyphs a token contributes: shape its trimmed text, glyph `j`
anchored at the token's x plus the shaper's offset `j`, with width the
difference to offset `j + 1` (the offset list's trailing sentinel). -/
def glyphsFor (P : FontProvider) (t : PlacedToken) : List Glyph :=
  let pr := P.glyphPositions t.tok.font (trimEnd t.tok.text)
  (List.range pr.1.length).map fun j =>
    let x := pr.2.getD j 0
    ⟨pr.1.getD j 0, (t.x : ℚ) + x, 0, pr.2.getD (j + 1) 0 - x⟩

/-- How far a token advances `charPosition`: one per shaped glyph of its
trimmed text, plus one extra slot for a whitespace or line-break token. -/
def contribP (P : FontProvider) (t : Token) : Nat :=
  (P.glyphPositions t.font (trimEnd t.text)).1.length +
    (if t.isWhitespace || t.isNewLine then 1 else 0)

/-- `TokenList::addRun`: close a run into the line being built, setting its
range, font and colour from the closing token and raising the line's
ascent and descent to the closing token's font metrics. -/
def addRunF (P : FontProvider) (la : LineAcc) (gl : List Glyph) (t : Token) (s e : Nat) : LineAcc :=
  { la with
    ascent := max la.ascent (P.ascent t.font),
    descent := max la.descent (P.descent t.font),
    runs := la.runs ++ [⟨t.font, t.colour, gl, (s, e)⟩] }

/-- Close the line being built, assigning its string range. -/
def mkLine (la : LineAcc) (s e : Nat) : Line :=
  ⟨(s, e), la.originX, la.originY, la.ascent, la.descent, la.runs⟩

/-- `currentLine->lineOrigin = tokenPos.translated (0, t->font.getAscent())`:
set the line origin of the line being built. -/
def setOrigin (la : LineAcc) (x y : ℚ) : LineAcc :=
  { la with originX := x, originY := y }

/-- One iteration of the token loop of `TokenList::createLayout` on token
`t` with lookahead `next?`: shape the token, set the line origin at the
first glyph of a line, advance `charPosition`, then close the run on a
font or colour change, and close the run and the line on a line change or
at the last token (a simultaneous font and line change closes the glyph
run and then an empty fresh run, as the released pointer is re-created).
Returns the new state and the emitted line, if any. -/
def buildStep (P : FontProvider) (t : PlacedToken) (next? : Option PlacedToken) (st : BSt) :
    BSt × Option Line :=
  let la0 := st.curLine.getD {}
  let gl0 := st.curRun.getD []
  let newG := glyphsFor P t
  let la1 := if st.needOrigin ∧ newG ≠ [] then
      setOrigin la0 (t.x : ℚ) ((t.y : ℚ) + P.ascent t.tok.font)
    else la0
  let needO1 := st.needOrigin && decide (newG = [])
  let gl1 := gl0 ++ newG
  let cp1 := st.cp + contribP P t.tok
  match next? with
  | none =>
    let la2 := addRunF P la1 gl1 t.tok st.runStart cp1
    ({ st with cp := cp1, curRun := none, curLine := none, needOrigin := needO1 },
      some (mkLine la2 st.lineStart cp1))
  | some nxt =>
    let fontChange := t.tok.font ≠ nxt.tok.font ∨ t.tok.colour ≠ nxt.tok.colour
    let lineChange := t.line ≠ nxt.line
    if fontChange then
      let la2 := addRunF P la1 gl1 t.tok st.runStart cp1
      if lineChange then
        let la3 := addRunF P la2 [] t.tok cp1 cp1
        (⟨cp1, cp1, cp1, none, none, true⟩, some (mkLine la3 st.lineStart cp1))
      else
        ({ st with cp := cp1, runStart := cp1, curRun := none, curLine := some la2,
                   needOrigin := needO1 }, none)
    else
      if lineChange then
        let la2 := addRunF P la1 gl1 t.tok st.runStart cp1
        (⟨cp1, cp1, cp1, none, none, true⟩, some (mkLine la2 st.lineStart cp1))
      else
        ({ st with cp := cp1, curRun := some gl1, curLine := some la1,
                   needOrigin := needO1 }, none)

/-- The token loop of `TokenList::createLayout`: run `buildStep` over the
placed tokens, collecting the emitted lines. -/
def buildAux (P : FontProvider) : List PlacedToken → BSt → List Line
  | [], _ => []
  | t :: rest, st =>
    let r := buildStep P t rest.head? st
    r.2.toList ++ buildAux P rest r.1

/-- `getLineWidth`: the rightmost edge (`x + width`) among the
non-whitespace tokens assigned to line `i`, or 0 if there are none. -/
def lineWidthAt (placed : List PlacedToken) (i : Nat) : Int :=
  placed.foldl (fun m p =>
    if p.line = i ∧ p.tok.isWhitespace = false then max m (p.x + p.tok.width) else m) 0

/-- The justification pass at the end of `TokenList::createLayout`: when
the flags include right (2) or horizontallyCentred (4), shift every line's
origin x by the leftover width (halved when centred). -/
def justifyLines (just : Nat) (totalW : Int) (placed : List PlacedToken) (ls : List Line) :
    List Line :=
  if just &&& 6 ≠ 0 then
    ls.mapIdx fun i l =>
      let dx0 : ℚ := ((totalW - lineWidthAt placed i : Int) : ℚ)
      let dx := if just &&& 4 ≠ 0 then dx0 / 2 else dx0
      { l with originX := l.originX + dx }
  else ls

/-- The per-run min/max scan inside `Line::getLineBoundsX`: both extrema
seeded from glyph 0's anchor, then every glyph after the first contributing
its anchor to the minimum and its anchor plus width to the maximum (the
loop `--j > 0` never adds glyph 0's width). `none` when the run has no
glyphs. -/
def runMinMax (r : Run) : Option (ℚ × ℚ) :=
  match r.glyphs with
  | [] => none
  | g0 :: gs =>
    some (gs.foldl (fun m g => min m g.anchorX) g0.anchorX,
          gs.foldl (fun m g => max m (g.anchorX + g.width)) g0.anchorX)

/-- The run loop of `Line::getLineBoundsX`: union the per-run extrema over
the runs in reverse order, the first non-empty run seeding the range. -/
def unionRuns : List Run → Option (ℚ × ℚ) → Option (ℚ × ℚ)
  | [], acc => acc
  | r :: rest, acc =>
    unionRuns rest
      (match runMinMax r with
        | none => acc
        | some mm =>
          match acc with
          | none => some mm
          | some a => some (min a.1 mm.1, max a.2 mm.2))

/-- `TextLayout::Line::getLineBoundsX`: the scanned range (the
default-constructed `Range (0, 0)` when every run is empty) shifted by the
line origin's x. -/
def lineBoundsX (l : Line) : ℚ × ℚ :=
  match unionRuns l.runs.reverse none with
  | none => (l.originX, l.originX)
  | some a => (a.1 + l.originX, a.2 + l.originX)

/-- `Range::getUnionWith`. -/
def unionQ (a b : ℚ × ℚ) : ℚ × ℚ := (min a.1 b.1, max a.2 b.2)

/-- The range scanned by `TextLayout::recalculateWidth`: the first line's
bounds unioned with the remaining lines' bounds (walked back to front). -/
def layoutBoundsRange (ls : List Line) : ℚ × ℚ :=
  match ls with
  | [] => (0, 0)
  | l0 :: rest => rest.reverse.foldl (fun r l => unionQ r (lineBoundsX l)) (lineBoundsX l0)

/-- `TextLayout::recalculateWidth`: for a non-empty, non-right-to-left
layout, shift every line's origin x left by the scanned range's start and
overwrite the width field with the scanned range's length. -/
def recalculateWidthF (text : AttrString) (L : TextLayoutS) : TextLayoutS :=
  if L.lines = [] ∨ text.readingDirection = ReadingDirection.rightToLeft then L
  else
    let range := layoutBoundsRange L.lines
    { L with
      lines := L.lines.map fun l => { l with originX := l.originX - range.1 },
      width := range.2 - range.1 }

/-- The C cast `(int) w` (truncation toward zero) applied to the layout
width. -/
def cIntTrunc (q : ℚ) : Int := if 0 ≤ q then ⌊q⌋ else -⌊-q⌋

/-- The layout as produced by `TokenList::createLayout` (tokenize, break,
build, justify) before `recalculateWidth`: width field `maxWidth`,
justification from the text. -/
def createPreNorm (P : FontProvider) (text : AttrString) (w : ℚ) : TextLayoutS :=
  let toks := tokensOf P text
  let placed := (layoutRuns (cIntTrunc w) toks).1
  let ls := buildAux P placed initBSt
  ⟨justifyLines text.justification (cIntTrunc w) placed ls, w, text.justification⟩

/-- `TextLayout::createLayout` with the standard (non-native) pipeline:
clear, set width and justification, build the standard layout, then
`recalculateWidth`. -/
def createLayoutF (P : FontProvider) (text : AttrString) (w : ℚ) : TextLayoutS :=
  recalculateWidthF text (createPreNorm P text w)

/-- `Range::getLength`. -/
def rangeLen (p : ℚ × ℚ) : ℚ := p.2 - p.1

/-- The best-width tracking step of `createLayoutWithBalancedLineLengths`
(lines 583–587): replace the recorded (bestWidth, bestLineProportion) pair
when the new proportion exceeds the recorded one. -/
def trackStep (best : ℚ × ℚ) (w prop : ℚ) : ℚ × ℚ :=
  if best.2 < prop then (w, prop) else best

/-- The search loop of `TextLayout::createLayoutWithBalancedLineLengths`:
while the candidate width exceeds the minimum, lay out at the candidate
width; return it if it has fewer than two lines or the last two lines'
proportion `max/min` (1 when the shorter is not positive) exceeds 0.9;
otherwise track the best width and retry 10 units narrower. After the
loop, re-lay out at the best width if it differs from the last candidate,
else keep the current layout. -/
def balancedAux (P : FontProvider) (text : AttrString) (minimumWidth : ℚ) :
    Nat → ℚ → ℚ → ℚ → TextLayoutS → TextLayoutS
  | 0, _, _, _, cur => cur
  | fuel + 1, maxWidth, bestWidth, bestProp, cur =>
    if minimumWidth < maxWidth then
      let l := createLayoutF P text maxWidth
      if l.lines.length < 2 then l
      else
        let line1 := rangeLen (lineBoundsX (l.lines.getD (l.lines.length - 1) emptyLine))
        let line2 := rangeLen (lineBoundsX (l.lines.getD (l.lines.length - 2) emptyLine))
        let shortestLine := min line1 line2
        let prop := if 0 < shortestLine then max line1 line2 / shortestLine else 1
        if 9 / 10 < prop then l
        else
          let b := trackStep (bestWidth, bestProp) maxWidth prop
          balancedAux P text minimumWidth fuel (maxWidth - 10) b.1 b.2 l
    else
      if bestWidth ≠ maxWidth then createLayoutF P text bestWidth else cur

/-- `TextLayout::createLayoutWithBalancedLineLengths`, acting on the
current layout `cur` (the method leaves `*this` untouched when the loop
never runs and no re-layout fires). The `fuel` counter only drives the
recursion and never runs out: each pass narrows the candidate width by 10,
so the loop guard `minimumWidth < maxWidth` fails after at most
`⌈maxWidth - minimumWidth⌉` passes, well below the supplied fuel. -/
def createBalancedF (P : FontProvider) (text : AttrString) (maxWidth : ℚ)
    (cur : TextLayoutS) : TextLayoutS :=
  balancedAux P text (maxWidth / 2) ((⌈maxWidth - maxWidth / 2⌉).toNat + 1) maxWidth maxWidth 0 cur

/-- JUCE `OwnedArray::operator[]`. Modelled from the spec: the container is
library code outside this file; its indexed access is bounds-checked and
yields no element (a null pointer) out of range. -/
def ownedIndex (ls : List Line) (i : Int) : Option Line :=
  if 0 ≤ i ∧ i < (ls.length : Int) then ls.get? i.toNat else none

/-- `TextLayout::getLine`: `*lines[index]`, the dereference of the
bounds-checked access modelled as an `Option` (none = the null-pointer
failure path). -/
def getLineF (L : TextLayoutS) (i : Int) : Option Line :=
  ownedIndex L.lines i

/-- A shaper that emits exactly one glyph per character of its input: the
well-behavedness assumption on the external glyph provider under which
character counting is meaningful. -/
def OneGlyphPerChar (P : FontProvider) : Prop :=
  ∀ f s, (P.glyphPositions f s).1.length = s.length

/-- No two adjacent characters are both whitespace (in JUCE's sense, which
includes `'\r'` and `'\n'`): every whitespace or line-break token is then a
single character. -/
def noAdjWS (s : List Char) : Prop :=
  List.Chain' (fun a b => ¬(juceIsWhitespace a = true ∧ juceIsWhitespace b = true)) s

/-- Executable check for `noAdjWS`. -/
def noAdjWSb : List Char → Bool
  | [] => true
  | [_] => true
  | a :: b :: t => (!(juceIsWhitespace a && juceIsWhitespace b)) && noAdjWSb (b :: t)

instance (s : List Char) : Decidable (noAdjWS s) :=
  decidable_of_iff (noAdjWSb s = true) (by
    induction s with
    | nil => simp [noAdjWSb, noAdjWS]
    | cons a t ih =>
      cases t with
      | nil => simp [noAdjWSb, noAdjWS]
      | cons b t2 =>
        rw [show noAdjWSb (a :: b :: t2) =
          ((!(juceIsWhitespace a && juceIsWhitespace b)) && noAdjWSb (b :: t2)) from rfl,
          Bool.and_eq_true, ih]
        rw [noAdjWS, noAdjWS, List.chain'_cons]
        simp
        intro _
        rcases Bool.eq_false_or_eq_true (juceIsWhitespace a) with ha | ha <;>
          rcases Bool.eq_false_or_eq_true (juceIsWhitespace b) with hb | hb <;>
          simp [ha, hb])

/-- How many of the ranges `[start, stop)` contain the offset `k`. -/
def countCover (rs : List (Nat × Nat)) (k : Nat) : Nat :=
  (rs.filter fun r => decide (r.1 ≤ k ∧ k < r.2)).length

/-- The ranges tile `[a, b)` in order: each starts where the previous one
stopped, the first at `a`, the last stopping at `b`. -/
def covers : List (Nat × Nat) → Nat → Nat → Prop
  | [], a, b => a = b
  | r :: rest, a, b => r.1 = a ∧ a ≤ r.2 ∧ covers rest r.2 b

/-- Total `charPosition` advance over a token list. -/
def totalContrib (P : FontProvider) (ts : List Token) : Nat :=
  (ts.map (contribP P)).sum

/-- The line-closing condition of `layoutRuns` after placing `p`, looking
ahead at `q`: `p` is a line break, or `q` is not whitespace and would
overflow (`x + p.width + q.width > maxW` with `x` the cursor at `p`). -/
def breakB (maxW : Int) (p q : PlacedToken) : Prop :=
  p.tok.isNewLine = true ∨ (q.tok.isWhitespace = false ∧ maxW < p.x + p.tok.width + q.tok.width)

/-- A test provider: every character is `k` units wide, one glyph per
character at offsets `0, k, 2k, …`, font height 12, ascent 10, descent 3. -/
def scaleP (k : Int) : FontProvider :=
  ⟨fun _ s => k * s.length, fun _ => 12, fun _ => 10, fun _ => 3,
   fun _ s => ((List.range s.length).map Int.ofNat,
               (List.range (s.length + 1)).map fun i => (k : ℚ) * i)⟩

/-- The unit-width test provider. -/
def unitP : FontProvider := scaleP 1

/-- An unattributed left-to-right text with top-left justification. -/
def mkPlainText (s : List Char) : AttrString := ⟨s, [], 9, ReadingDirection.natural⟩

/-- Test text `"a"`. -/
def textA : AttrString := mkPlainText ['a']

/-- Test text `"ab"`. -/
def textAB : AttrString := mkPlainText ['a', 'b']

/-- Test text `"a  b"` (two consecutive spaces). -/
def textAAB : AttrString := mkPlainText ['a', ' ', ' ', 'b']

/-- Test text `"abcd"` with chosen justification flags and reading
direction. -/
def textABCD (j : Nat) (rd : ReadingDirection) : AttrString :=
  ⟨['a', 'b', 'c', 'd'], [], j, rd⟩

/-- Test text `"abc"` whose last character alone carries font 1. -/
def textStyled : AttrString :=
  ⟨['a', 'b', 'c'], [⟨2, 3, some ⟨1⟩, none⟩], 9, ReadingDirection.natural⟩

/-- The empty test text. -/
def emptyText : AttrString := mkPlainText []

/-- Test text `"ab"` with right-to-left reading direction. -/
def textABrtl : AttrString := ⟨['a', 'b'], [], 9, ReadingDirection.rightToLeft⟩

/-- A single glyph of width 5 anchored at 0, for the line-bounds claims. -/
def exGlyph : Glyph := ⟨7, 0, 0, 5⟩

/-- A line holding one run with the single glyph `exGlyph`. -/
def exLine1 : Line := ⟨(0, 1), 0, 0, 0, 0, [⟨defaultFont, blackColour, [exGlyph], (0, 1)⟩]⟩

/-- A line holding one run with two glyphs, origin x = 3. -/
def exLine2 : Line :=
  ⟨(0, 2), 3, 0, 0, 0, [⟨defaultFont, blackColour, [⟨7, 0, 0, 5⟩, ⟨8, 5, 0, 5⟩], (0, 2)⟩]⟩

/-- A sample one-line layout for the indexed-access claim. -/
def sampleLayout : TextLayoutS := ⟨[emptyLine], 5, 9⟩

/-- A token that advances `charPosition` by its extra slot: a whitespace or
line-break token. -/
def wsTok (t : Token) : Prop := t.isWhitespace = true ∨ t.isNewLine = true

/-- The shape invariant of tokens produced by `appendText`: non-empty text;
a whitespace/line-break token is a single whitespace character, and a word
token contains no whitespace at all. -/
def tokOK (t : Token) : Prop :=
  t.text ≠ [] ∧
  (wsTok t → t.text.length = 1 ∧ ∀ c ∈ t.text, juceIsWhitespace c = true) ∧
  (¬ wsTok t → ∀ c ∈ t.text, juceIsWhitespace c = false)

/-! ### General lemmas about the coverage predicate -/

theorem covers_le : ∀ (rs : List (Nat × Nat)) (a b : Nat), covers rs a b → a ≤ b := by
  intro rs
  induction rs with
  | nil => intro a b h; exact Nat.le_of_eq h
  | cons r rest ih =>
    intro a b h
    obtain ⟨-, h2, h3⟩ := h
    exact le_trans h2 (ih _ _ h3)

theorem covers_count : ∀ (rs : List (Nat × Nat)) (a b k : Nat), covers rs a b →
    countCover rs k = if a ≤ k ∧ k < b then 1 else 0 := by
  intro rs
  induction rs with
  | nil =>
    intro a b k h
    rw [show a = b from h]
    simp only [countCover, List.filter_nil, List.length_nil]
    split <;> omega
  | cons r rest ih =>
    intro a b k h
    obtain ⟨h1, h2, h3⟩ := h
    have hrb : r.2 ≤ b := covers_le _ _ _ h3
    have hc := ih r.2 b k h3
    simp only [countCover, List.filter_cons] at hc ⊢
    by_cases hk : r.1 ≤ k ∧ k < r.2
    · rw [if_pos (by exact_mod_cast decide_eq_true hk)]
      simp only [List.length_cons, hc]
      rw [if_neg (by omega), if_pos (by omega)]
    · rw [if_neg (by simpa using hk)]
      rw [hc]
      by_cases hk2 : r.2 ≤ k ∧ k < b
      · rw [if_pos hk2, if_pos (by omega)]
      · rw [if_neg hk2, if_neg (by omega)]

theorem covers_sum : ∀ (rs : List (Nat × Nat)) (a b : Nat), covers rs a b →
    (rs.map fun r => r.2 - r.1).sum = b - a := by
  intro rs
  induction rs with
  | nil => intro a b h; simp [show a = b from h]
  | cons r rest ih =>
    intro a b h
    obtain ⟨h1, h2, h3⟩ := h
    have hrb : r.2 ≤ b := covers_le _ _ _ h3
    simp only [List.map_cons, List.sum_cons, ih r.2 b h3]
    omega

/-! ### C8: bounds-checked line access -/

/-- C8: `getLine` is bounds-checked: any index outside `[0, numLines)`
fails (yields no line, the null-pointer path of `*lines[index]`), and any
index inside yields the line at that index. -/
theorem getLine_bounds_checked :
    ∀ (L : TextLayoutS) (i : Int),
      ((i < 0 ∨ (L.lines.length : Int) ≤ i) → getLineF L i = none) ∧
      (0 ≤ i → i < (L.lines.length : Int) → getLineF L i = L.lines.get? i.toNat) := by
  intro L i
  constructor
  · intro h
    simp only [getLineF, ownedIndex]
    rw [if_neg (by omega)]
  · intro h1 h2
    simp only [getLineF, ownedIndex]
    rw [if_pos ⟨h1, h2⟩]

/-- Witness for C8 at a concrete layout: index −1 fails, index 0 returns
the first line. -/
theorem getLine_bounds_checked_witness :
    getLineF sampleLayout (-1) = none ∧ getLineF sampleLayout 0 = some emptyLine := by
  constructor
  · exact (getLine_bounds_checked sampleLayout (-1)).1 (by decide)
  · rw [(getLine_bounds_checked sampleLayout 0).2 (by decide) (by decide)]
    rfl

/-! ### C3: line horizontal bounds -/

theorem foldl_min_le_init (gs : List Glyph) : ∀ a : ℚ,
    gs.foldl (fun m g => min m g.anchorX) a ≤ a := by
  induction gs with
  | nil => intro a; simp
  | cons g gs ih =>
    intro a
    exact le_trans (ih (min a g.anchorX)) (min_le_left _ _)

theorem foldl_min_le_mem (gs : List Glyph) : ∀ (a : ℚ) (g : Glyph), g ∈ gs →
    gs.foldl (fun m g => min m g.anchorX) a ≤ g.anchorX := by
  induction gs with
  | nil => intro a g h; cases h
  | cons g0 gs ih =>
    intro a g h
    rcases List.mem_cons.mp h with h | h
    · subst h
      exact le_trans (foldl_min_le_init gs _) (min_le_right _ _)
    · exact ih _ g h

theorem le_foldl_max_init (gs : List Glyph) : ∀ a : ℚ,
    a ≤ gs.foldl (fun m g => max m (g.anchorX + g.width)) a := by
  induction gs with
  | nil => intro a; simp
  | cons g gs ih =>
    intro a
    exact le_trans (le_max_left _ _) (ih (max a (g.anchorX + g.width)))

theorem le_foldl_max_mem (gs : List Glyph) : ∀ (a : ℚ) (g : Glyph), g ∈ gs →
    g.anchorX + g.width ≤ gs.foldl (fun m g => max m (g.anchorX + g.width)) a := by
  induction gs with
  | nil => intro a g h; cases h
  | cons g0 gs ih =>
    intro a g h
    rcases List.mem_cons.mp h with h | h
    · subst h
      exact le_trans (le_max_right _ _) (le_foldl_max_init gs _)
    · exact ih _ g h

theorem unionRuns_acc_le : ∀ (rs : List Run) (a mm : ℚ × ℚ),
    unionRuns rs (some a) = some mm → mm.1 ≤ a.1 ∧ a.2 ≤ mm.2 := by
  intro rs
  induction rs with
  | nil => intro a mm h; cases h; exact ⟨le_refl _, le_refl _⟩
  | cons r rest ih =>
    intro a mm h
    simp only [unionRuns] at h
    rcases hr : runMinMax r with - | g <;> rw [hr] at h
    · exact ih a mm h
    · have := ih _ mm h
      constructor
      · exact le_trans this.1 (min_le_left _ _)
      · exact le_trans (le_max_left _ _) this.2

theorem unionRuns_some_isSome : ∀ (rs : List Run) (a : ℚ × ℚ),
    (unionRuns rs (some a)).isSome := by
  intro rs
  induction rs with
  | nil => intro a; rfl
  | cons r rest ih =>
    intro a
    simp only [unionRuns]
    rcases hr : runMinMax r with - | g
    · exact ih a
    · exact ih _

theorem unionRuns_isSome : ∀ (rs : List Run) (acc : Option (ℚ × ℚ)) (r : Run),
    r ∈ rs → (runMinMax r).isSome → (unionRuns rs acc).isSome := by
  intro rs
  induction rs with
  | nil => intro acc r h; cases h
  | cons r0 rest ih =>
    intro acc r h hr
    rcases List.mem_cons.mp h with h | h
    · subst h
      rcases hg : runMinMax r with - | g
      · rw [hg] at hr; cases hr
      · simp only [unionRuns, hg]
        rcases acc with - | a
        · exact unionRuns_some_isSome rest g
        · exact unionRuns_some_isSome rest _
    · simp only [unionRuns]
      exact ih _ r h hr

theorem unionRuns_mem_le : ∀ (rs : List Run) (acc : Option (ℚ × ℚ)) (r : Run) (g : ℚ × ℚ),
    r ∈ rs → runMinMax r = some g → ∀ mm, unionRuns rs acc = some mm →
    mm.1 ≤ g.1 ∧ g.2 ≤ mm.2 := by
  intro rs
  induction rs with
  | nil => intro acc r g h; cases h
  | cons r0 rest ih =>
    intro acc r g h hg mm hu
    rcases List.mem_cons.mp h with h | h
    · subst h
      simp only [unionRuns, hg] at hu
      rcases acc with - | a
      · exact unionRuns_acc_le rest g mm hu
      · have := unionRuns_acc_le rest _ mm hu
        constructor
        · exact le_trans this.1 (min_le_right _ _)
        · exact le_trans (le_max_right _ _) this.2
    · simp only [unionRuns] at hu
      exact ih _ r g h hg mm hu

theorem unionRuns_none_of_all : ∀ (rs : List Run),
    (∀ r ∈ rs, r.glyphs = []) → unionRuns rs none = none := by
  intro rs
  induction rs with
  | nil => intro _; rfl
  | cons r rest ih =>
    intro h
    have hr : runMinMax r = none := by
      have := h r (by simp)
      simp [runMinMax, this]
    simp only [unionRuns, hr]
    exact ih fun r hr => h r (by simp [hr])

/-- C3 (amended): `getLineBoundsX` contains every glyph's anchor point and,
for every glyph after the first of its run, the glyph's full extent
`[anchor.x, anchor.x + width]`, all offset by the line origin's x; the
first glyph of each run contributes only its anchor point (its width is
skipped by the `--j > 0` loop). With no glyphs at all the result is the
empty (zero-length) range at the line origin's x. -/
theorem getLineBoundsX_spec :
    ∀ (l : Line),
      ((∀ r ∈ l.runs, r.glyphs = []) → lineBoundsX l = (l.originX, l.originX)) ∧
      (∀ r ∈ l.runs, ∀ (g0 : Glyph) (gs : List Glyph), r.glyphs = g0 :: gs →
        ((lineBoundsX l).1 ≤ g0.anchorX + l.originX ∧
         g0.anchorX + l.originX ≤ (lineBoundsX l).2) ∧
        (∀ g ∈ gs, (lineBoundsX l).1 ≤ g.anchorX + l.originX ∧
          g.anchorX + g.width + l.originX ≤ (lineBoundsX l).2)) := by
  intro l
  constructor
  · intro h
    have : unionRuns l.runs.reverse none = none :=
      unionRuns_none_of_all _ fun r hr => h r (List.mem_reverse.mp hr)
    simp [lineBoundsX, this]
  · intro r hr g0 gs hg
    have hmm : runMinMax r = some
        (gs.foldl (fun m g => min m g.anchorX) g0.anchorX,
         gs.foldl (fun m g => max m (g.anchorX + g.width)) g0.anchorX) := by
      simp [runMinMax, hg]
    have hsome : (unionRuns l.runs.reverse none).isSome :=
      unionRuns_isSome _ none r (List.mem_reverse.mpr hr) (by simp [hmm])
    obtain ⟨mm, hmm2⟩ := Option.isSome_iff_exists.mp hsome
    have hb := unionRuns_mem_le _ none r _ (List.mem_reverse.mpr hr) hmm mm hmm2
    have hbounds : lineBoundsX l = (mm.1 + l.originX, mm.2 + l.originX) := by
      simp [lineBoundsX, hmm2]
    rw [hbounds]
    constructor
    · constructor
      · have h1 : mm.1 ≤ g0.anchorX := le_trans hb.1 (foldl_min_le_init gs g0.anchorX)
        simpa using add_le_add_right h1 l.originX
      · have h2 : g0.anchorX ≤ mm.2 := le_trans (le_foldl_max_init gs g0.anchorX) hb.2
        simpa using add_le_add_right h2 l.originX
    · intro g hgm
      constructor
      · have h1 : mm.1 ≤ g.anchorX := le_trans hb.1 (foldl_min_le_mem gs g0.anchorX g hgm)
        simpa using add_le_add_right h1 l.originX
      · have h2 : g.anchorX + g.width ≤ mm.2 :=
          le_trans (le_foldl_max_mem gs g0.anchorX g hgm) hb.2
        simpa using add_le_add_right h2 l.originX

section ConcreteRatEval

attribute [local semireducible] Rat.add Rat.sub Rat.mul Rat.inv

/-- Counterexample to C3 as stated: in a line whose only run holds the
single glyph `exGlyph` (anchor 0, width 5), the bounds come out as the
degenerate range `(0, 0)`, so the glyph's full extent `[0, 5]` is not
contained: the first glyph of a run contributes only its anchor. -/
theorem getLineBoundsX_misses_first_width :
    lineBoundsX exLine1 = (0, 0) ∧
    ¬ exGlyph.anchorX + exGlyph.width + exLine1.originX ≤ (lineBoundsX exLine1).2 := by
  constructor
  · decide
  · decide

/-- Witness for C3 at a two-glyph run: the second glyph's full extent
(reaching 10, plus origin 3) is inside the bounds, and so are both
anchors. -/
theorem getLineBoundsX_spec_witness :
    (lineBoundsX exLine2).1 ≤ (0 : ℚ) + 3 ∧
    ((5 : ℚ) + 5) + 3 ≤ (lineBoundsX exLine2).2 := by
  have h := (getLineBoundsX_spec exLine2).2
          ⟨defaultFont, blackColour, [⟨7, 0, 0, 5⟩, ⟨8, 5, 0, 5⟩], (0, 2)⟩
          (by decide) ⟨7, 0, 0, 5⟩ [⟨8, 5, 0, 5⟩] rfl
  refine ⟨h.1.1, ?_⟩
  have h2 := (h.2 ⟨8, 5, 0, 5⟩ (by decide)).2
  simpa [exLine2] using h2

end ConcreteRatEval

/-! ### C2: greedy line breaking -/

theorem layoutRunsAux_spec (maxW : Int) :
    ∀ (ts : List Token) (line : Nat) (x y hh : Int),
      ((layoutRunsAux maxW ts line x y hh).1.map (fun p => p.tok) = ts) ∧
      (∀ p, (layoutRunsAux maxW ts line x y hh).1.head? = some p → p.line = line ∧ p.x = x) ∧
      List.Chain' (fun p q => (q.line = p.line + 1 ↔ breakB maxW p q) ∧
        (¬ breakB maxW p q → q.line = p.line)) (layoutRunsAux maxW ts line x y hh).1 := by
  intro ts
  induction ts with
  | nil =>
    intro line x y hh
    refine ⟨rfl, ?_, ?_⟩ <;> simp [layoutRunsAux]
  | cons t rest ih =>
    cases rest with
    | nil =>
      intro line x y hh
      refine ⟨rfl, ?_, ?_⟩
      · intro p hp
        simp only [layoutRunsAux, List.head?_cons, Option.some.injEq] at hp
        rw [← hp]
        exact ⟨rfl, rfl⟩
      · simp [layoutRunsAux]
    | cons next rest2 =>
      intro line x y hh
      by_cases hb : (t.isNewLine || (!next.isWhitespace &&
          decide (maxW < x + t.width + next.width))) = true
      · have hb' : breakB maxW ⟨t, x, y, line⟩ ⟨next, 0, 0, 0⟩ := by
          simp only [breakB]
          simpa [Bool.or_eq_true, Bool.and_eq_true, Bool.not_eq_true',
            decide_eq_true_iff] using hb
        have hres : layoutRunsAux maxW (t :: next :: rest2) line x y hh =
            (⟨t, x, y, line⟩ :: (layoutRunsAux maxW (next :: rest2) (line + 1) 0
              (y + max hh t.height) 0).1,
             (layoutRunsAux maxW (next :: rest2) (line + 1) 0 (y + max hh t.height) 0).2) := by
          simp only [layoutRunsAux]
          rw [if_pos hb]
        obtain ⟨ihm, ihh, ihc⟩ := ih (line + 1) 0 (y + max hh t.height) 0
        rw [hres]
        refine ⟨by rw [List.map_cons, ihm], ?_, ?_⟩
        · intro p hp
          simp only [List.head?_cons, Option.some.injEq] at hp
          rw [← hp]; exact ⟨rfl, rfl⟩
        · rw [List.chain'_cons']
          refine ⟨?_, ihc⟩
          intro q hq
          have hq' := ihh q hq
          have hqt : q.tok = next := by
            have h1 : ((layoutRunsAux maxW (next :: rest2) (line + 1) 0
                (y + max hh t.height) 0).1.map (fun p => p.tok)).head? = some next := by
              rw [ihm]; rfl
            rw [List.head?_map, hq] at h1
            simpa using h1
          have hbq : breakB maxW ⟨t, x, y, line⟩ q := by
            simp only [breakB, hqt]
            simpa only [breakB] using hb'
          constructor
          · exact ⟨fun _ => hbq, fun _ => by rw [hq'.1]⟩
          · intro hnb; exact absurd hbq hnb
      · have hb' : ¬ breakB maxW ⟨t, x, y, line⟩ ⟨next, 0, 0, 0⟩ := by
          simp only [breakB]
          simpa [Bool.or_eq_true, Bool.and_eq_true, Bool.not_eq_true',
            decide_eq_true_iff] using hb
        have hres : layoutRunsAux maxW (t :: next :: rest2) line x y hh =
            (⟨t, x, y, line⟩ :: (layoutRunsAux maxW (next :: rest2) line (x + t.width) y
              (max hh t.height)).1,
             (layoutRunsAux maxW (next :: rest2) line (x + t.width) y (max hh t.height)).2) := by
          simp only [layoutRunsAux]
          rw [if_neg hb]
        obtain ⟨ihm, ihh, ihc⟩ := ih line (x + t.width) y (max hh t.height)
        rw [hres]
        refine ⟨by rw [List.map_cons, ihm], ?_, ?_⟩
        · intro p hp
          simp only [List.head?_cons, Option.some.injEq] at hp
          rw [← hp]; exact ⟨rfl, rfl⟩
        · rw [List.chain'_cons']
          refine ⟨?_, ihc⟩
          intro q hq
          have hq' := ihh q hq
          have hqt : q.tok = next := by
            have h1 : ((layoutRunsAux maxW (next :: rest2) line (x + t.width) y
                (max hh t.height)).1.map (fun p => p.tok)).head? = some next := by
              rw [ihm]; rfl
            rw [List.head?_map, hq] at h1
            simpa using h1
          have hbq : ¬ breakB maxW ⟨t, x, y, line⟩ q := by
            simp only [breakB, hqt]
            simpa only [breakB] using hb'
          constructor
          · constructor
            · intro hl
              exfalso
              rw [hq'.1] at hl
              simp at hl
            · intro hbb; exact absurd hbb hbq
          · intro _; exact hq'.1

/-- C2: the line breaker closes a line after token `t` exactly when `t` is
a line-break token or the next token is not whitespace and placing it
would exceed the width (`breakB`): the placed tokens are the input tokens
in order (so no token is ever split), consecutive placed tokens move to a
new line precisely when `breakB` holds between them (hence whitespace
tokens never trigger a wrap), and a single token is always placed whole on
one line at the origin, whatever its width relative to `maxW`. -/
theorem layoutRuns_wrap_spec (maxW : Int) (ts : List Token) :
    ((layoutRuns maxW ts).1.map (fun p => p.tok) = ts) ∧
    List.Chain' (fun p q => (q.line = p.line + 1 ↔ breakB maxW p q) ∧
      (¬ breakB maxW p q → q.line = p.line)) (layoutRuns maxW ts).1 ∧
    (∀ t : Token, layoutRuns maxW [t] = ([⟨t, 0, 0, 0⟩], 1)) := by
  exact ⟨(layoutRunsAux_spec maxW ts 0 0 0 0).1,
         (layoutRunsAux_spec maxW ts 0 0 0 0).2.2,
         fun t => rfl⟩

/-! ### C5, C9: the balancer -/

theorem balanced_noop (P : FontProvider) (text : AttrString) (w : ℚ) (cur : TextLayoutS)
    (hw : w ≤ 0) : createBalancedF P text w cur = cur := by
  rw [createBalancedF, balancedAux]
  rw [if_neg (by linarith), if_neg (by simp)]

theorem balanced_first_pass (P : FontProvider) (text : AttrString) (w : ℚ) (cur : TextLayoutS)
    (hw : 0 < w) : createBalancedF P text w cur = createLayoutF P text w := by
  rw [createBalancedF, balancedAux]
  rw [if_pos (by linarith)]
  set l := createLayoutF P text w with hl
  by_cases h2 : l.lines.length < 2
  · rw [if_pos h2]
  · rw [if_neg h2]
    set line1 := rangeLen (lineBoundsX (l.lines.getD (l.lines.length - 1) emptyLine)) with h1d
    set line2 := rangeLen (lineBoundsX (l.lines.getD (l.lines.length - 2) emptyLine)) with h2d
    have hprop : (9 : ℚ) / 10 <
        (if 0 < min line1 line2 then max line1 line2 / min line1 line2 else 1) := by
      by_cases hs : 0 < min line1 line2
      · rw [if_pos hs]
        have h1 : (1 : ℚ) ≤ max line1 line2 / min line1 line2 := by
          rw [le_div_iff₀ hs]
          simpa using min_le_max
        linarith
      · rw [if_neg hs]; norm_num
    rw [if_pos hprop]

/-- C9 (amended): for every positive maxWidth the balanced entry point
returns exactly the standard layout at that width: the proportion
`max/min` of the last two lines' extents is at least 1 whenever the
shorter is positive and is set to 1 otherwise, so it always exceeds the
0.9 threshold and the search stops after the first, full-width pass (and
with fewer than two lines it stops even earlier, with the same layout).
For maxWidth ≤ 0 the loop never runs and the current layout is kept
unchanged instead. -/
theorem balanced_equals_standard (P : FontProvider) (text : AttrString) (w : ℚ)
    (cur : TextLayoutS) (hw : 0 < w) :
    createBalancedF P text w cur = createLayoutF P text w :=
  balanced_first_pass P text w cur hw

/-- Witness for C9 at a concrete input. -/
theorem balanced_equals_standard_witness :
    createBalancedF unitP textAB 100 emptyLayout = createLayoutF unitP textAB 100 :=
  balanced_equals_standard unitP textAB 100 emptyLayout (by norm_num)

/-- Counterexample to C9 as stated: at maxWidth = 0 the search range is
empty, `createLayoutWithBalancedLineLengths` leaves the (empty) current
layout untouched, while `createLayout` at width 0 produces one line for
the text `"ab"`. -/
theorem balanced_ne_standard_at_zero :
    (createBalancedF unitP textAB 0 emptyLayout).lines.length = 0 ∧
    (createLayoutF unitP textAB 0).lines.length = 1 ∧
    createBalancedF unitP textAB 0 emptyLayout ≠ createLayoutF unitP textAB 0 := by
  have h0 : createBalancedF unitP textAB 0 emptyLayout = emptyLayout :=
    balanced_noop unitP textAB 0 emptyLayout (le_refl 0)
  have h1 : (createLayoutF unitP textAB 0).lines.length = 1 := by decide
  refine ⟨by rw [h0]; rfl, h1, ?_⟩
  intro he
  rw [h0] at he
  have := congrArg (fun L => L.lines.length) he
  simp only [h1] at this
  simpa [emptyLayout] using this

/-- C5 (amended): the best-width tracking update keeps the recorded pair
unless the new proportion is strictly higher (it records the highest
proportion seen, not the lowest), and it is dead code: whenever the loop
guard holds the first pass already returns (its proportion always exceeds
0.9), so the post-loop path is reached only with an empty search range
(maxWidth ≤ 0), where nothing was tracked, the best width equals the last
width and no re-layout runs — the current layout is returned unchanged. -/
theorem balancer_tracking_spec :
    (∀ (P : FontProvider) (text : AttrString) (w : ℚ) (cur : TextLayoutS),
      w ≤ 0 → createBalancedF P text w cur = cur) ∧
    (∀ (P : FontProvider) (text : AttrString) (w : ℚ) (cur : TextLayoutS),
      0 < w → createBalancedF P text w cur = createLayoutF P text w) :=
  ⟨fun P text w cur hw => balanced_noop P text w cur hw,
   fun P text w cur hw => balanced_first_pass P text w cur hw⟩

/-- Witness for C5 at concrete inputs: the empty-range path keeps the
current layout, the positive-width path returns the first pass. -/
theorem balancer_tracking_spec_witness :
    createBalancedF unitP textAB 0 emptyLayout = emptyLayout ∧
    createBalancedF unitP textAB 50 emptyLayout = createLayoutF unitP textAB 50 :=
  ⟨balancer_tracking_spec.1 unitP textAB 0 emptyLayout (le_refl 0),
   balancer_tracking_spec.2 unitP textAB 50 emptyLayout (by norm_num)⟩

/-- Counterexample to C5 as stated: presented with a strictly lower
(better, by the claim's reading) proportion 3/2 at width 110, the tracking
update keeps the previously recorded width 120 with its higher proportion
2 — the code tracks the highest proportion seen, not the lowest. -/
theorem trackStep_keeps_highest :
    trackStep (120, 2) 110 (3 / 2) = (120, 2) ∧ (3 / 2 : ℚ) < 2 := by
  constructor
  · rw [trackStep, if_neg (by norm_num)]
  · norm_num

/-! ### Attribute resolution: lemmas about `ataux` -/

theorem ataux_zero (text : AttrString) (n rs : Nat) (fac : FAC) :
    ataux text n 0 rs fac = [] := rfl

theorem ataux_succ (text : AttrString) (n k rs : Nat) (fac : FAC) :
    ataux text n (k + 1) rs fac =
      (if 0 < n - (k + 1) ∧ (resolveFAC text (n - (k + 1)) ≠ fac ∨ n - (k + 1) = n - 1) then
        ⟨fac, rs, if n - (k + 1) < n - 1 then n - (k + 1) else n - (k + 1) + 1⟩ ::
          ataux text n k (n - (k + 1)) (resolveFAC text (n - (k + 1)))
      else ataux text n k rs (resolveFAC text (n - (k + 1)))) := rfl

theorem ataux_covers (text : AttrString) (n : Nat) :
    ∀ (k rs : Nat) (fac : FAC), 1 ≤ k → k ≤ n - 1 → rs ≤ n - k →
      covers ((ataux text n k rs fac).map fun r => (r.rstart, r.rstop)) rs n := by
  intro k
  induction k with
  | zero => intro rs fac h1 h2 h3; omega
  | succ k' ih =>
    intro rs fac h1 h2 h3
    rw [ataux_succ]
    by_cases hc : 0 < n - (k' + 1) ∧
        (resolveFAC text (n - (k' + 1)) ≠ fac ∨ n - (k' + 1) = n - 1)
    · rw [if_pos hc]
      by_cases hl : n - (k' + 1) < n - 1
      · rw [if_pos hl, List.map_cons]
        dsimp only
        refine ⟨rfl, by omega, ?_⟩
        exact ih (n - (k' + 1)) (resolveFAC text (n - (k' + 1))) (by omega) (by omega) (by omega)
      · rw [if_neg hl, List.map_cons]
        have hk0 : k' = 0 := by omega
        subst hk0
        rw [ataux_zero]
        dsimp only
        refine ⟨rfl, by omega, ?_⟩
        show n - (0 + 1) + 1 = n
        omega
    · rw [if_neg hc]
      have hk1 : 1 ≤ k' := by
        by_contra hk
        have hk0 : k' = 0 := by omega
        subst hk0
        exact hc ⟨by omega, Or.inr (by omega)⟩
      exact ih rs (resolveFAC text (n - (k' + 1))) hk1 (by omega) (by omega)

theorem getLast?_cons_of_ne_nil {α : Type} (a : α) (l : List α) (h : l ≠ []) :
    (a :: l).getLast? = l.getLast? := by
  cases l with
  | nil => exact absurd rfl h
  | cons b t => exact List.getLast?_cons_cons

theorem ataux_last (text : AttrString) (n : Nat) :
    ∀ (k rs : Nat) (fac : FAC), 1 ≤ k → k ≤ n - 1 →
      fac = resolveFAC text (n - k - 1) →
      ataux text n k rs fac ≠ [] ∧
      ∃ rs', (ataux text n k rs fac).getLast? = some ⟨resolveFAC text (n - 2), rs', n⟩ := by
  intro k
  induction k with
  | zero => intro rs fac h1 h2 h3; omega
  | succ k' ih =>
    intro rs fac h1 h2 hfac
    rw [ataux_succ]
    by_cases hk0 : k' = 0
    · subst hk0
      rw [if_pos ⟨by omega, Or.inr (by omega)⟩, if_neg (by omega), ataux_zero]
      have h3 : fac = resolveFAC text (n - 2) := by
        rw [hfac]; congr 1 <;> omega
      have h4 : n - (0 + 1) + 1 = n := by omega
      refine ⟨by simp, rs, ?_⟩
      rw [show ([⟨fac, rs, n - (0 + 1) + 1⟩] : List RunAttr).getLast? =
        some ⟨fac, rs, n - (0 + 1) + 1⟩ from rfl, h3, h4]
    · have hknz : 1 ≤ k' := by omega
      have hfac' : resolveFAC text (n - (k' + 1)) = resolveFAC text (n - k' - 1) := by
        congr 1 <;> omega
      have ihr := ih (n - (k' + 1)) (resolveFAC text (n - (k' + 1))) hknz (by omega) hfac'
      by_cases hc : 0 < n - (k' + 1) ∧
          (resolveFAC text (n - (k' + 1)) ≠ fac ∨ n - (k' + 1) = n - 1)
      · rw [if_pos hc]
        obtain ⟨hne, rs', hlast⟩ := ihr
        refine ⟨by simp, rs', ?_⟩
        rw [getLast?_cons_of_ne_nil _ _ hne, hlast]
      · rw [if_neg hc]
        obtain ⟨hne, rs', hlast⟩ :=
          ih rs (resolveFAC text (n - (k' + 1))) hknz (by omega) hfac'
        exact ⟨hne, rs', hlast⟩

theorem ataux_fac_mem (text : AttrString) (n : Nat) :
    ∀ (k rs : Nat) (fac : FAC), 1 ≤ k → k ≤ n - 1 →
      fac = resolveFAC text (n - k - 1) →
      ∀ ra ∈ ataux text n k rs fac, ∃ j, j + 2 ≤ n ∧ ra.fac = resolveFAC text j := by
  intro k
  induction k with
  | zero => intro rs fac h1 h2 h3; omega
  | succ k' ih =>
    intro rs fac h1 h2 hfac ra hra
    rw [ataux_succ] at hra
    have hfac' : resolveFAC text (n - (k' + 1)) = resolveFAC text (n - k' - 1) := by
      congr 1 <;> omega
    by_cases hc : 0 < n - (k' + 1) ∧
        (resolveFAC text (n - (k' + 1)) ≠ fac ∨ n - (k' + 1) = n - 1)
    · rw [if_pos hc] at hra
      rcases List.mem_cons.mp hra with hh | ht
      · refine ⟨n - (k' + 1) - 1, by omega, ?_⟩
        rw [hh, hfac]
      · by_cases hk0 : k' = 0
        · subst hk0; rw [ataux_zero] at ht; cases ht
        · exact ih (n - (k' + 1)) (resolveFAC text (n - (k' + 1))) (by omega) (by omega)
            hfac' ra ht
    · rw [if_neg hc] at hra
      by_cases hk0 : k' = 0
      · subst hk0; rw [ataux_zero] at hra; cases hra
      · exact ih rs (resolveFAC text (n - (k' + 1))) (by omega) (by omega) hfac' ra hra

theorem ataux_uniform (text : AttrString) (n : Nat)
    (huni : ∀ j, j < n → resolveFAC text j = resolveFAC text 0) :
    ∀ (k rs : Nat), 1 ≤ k → k ≤ n - 1 →
      ataux text n k rs (resolveFAC text 0) = [⟨resolveFAC text 0, rs, n⟩] := by
  intro k
  induction k with
  | zero => intro rs h1 h2; omega
  | succ k' ih =>
    intro rs h1 h2
    rw [ataux_succ]
    have hres : resolveFAC text (n - (k' + 1)) = resolveFAC text 0 := huni _ (by omega)
    by_cases hk0 : k' = 0
    · subst hk0
      rw [if_pos ⟨by omega, Or.inr (by omega)⟩, if_neg (by omega), ataux_zero,
        show n - (0 + 1) + 1 = n by omega]
    · rw [if_neg (by
        rintro ⟨-, hne | heq⟩
        · exact hne hres
        · omega), hres]
      exact ih rs (by omega) (by omega)

theorem runAttributesOf_eq (text : AttrString) (m : Nat) (hm : text.text.length = m + 2) :
    runAttributesOf text = ataux text (m + 2) (m + 1) 0 (resolveFAC text 0) := by
  rw [runAttributesOf, hm, ataux_succ, if_neg (by simp)]
  congr 1
  simp

theorem runAttributesOf_short (text : AttrString) (h : text.text.length ≤ 1) :
    runAttributesOf text = [] := by
  rcases Nat.le_one_iff_eq_zero_or_eq_one.mp h with h0 | h1
  · rw [runAttributesOf, h0]; rfl
  · rw [runAttributesOf, h1, ataux_succ, if_neg (by simp), ataux_zero]

theorem runAttributesOf_covers (text : AttrString) (hn : 2 ≤ text.text.length) :
    covers ((runAttributesOf text).map fun r => (r.rstart, r.rstop)) 0 text.text.length := by
  obtain ⟨m, hm⟩ : ∃ m, text.text.length = m + 2 := ⟨text.text.length - 2, by omega⟩
  rw [runAttributesOf_eq text m hm, hm]
  exact ataux_covers text (m + 2) (m + 1) 0 (resolveFAC text 0) (by omega) (by omega) (by omega)

theorem runAttributesOf_last (text : AttrString) (hn : 2 ≤ text.text.length) :
    runAttributesOf text ≠ [] ∧
    ∃ rs', (runAttributesOf text).getLast? =
      some ⟨resolveFAC text (text.text.length - 2), rs', text.text.length⟩ := by
  obtain ⟨m, hm⟩ : ∃ m, text.text.length = m + 2 := ⟨text.text.length - 2, by omega⟩
  rw [runAttributesOf_eq text m hm, hm]
  exact ataux_last text (m + 2) (m + 1) 0 (resolveFAC text 0) (by omega) (by omega)
    (by congr 1; omega)

theorem runAttributesOf_fac_mem (text : AttrString) :
    ∀ ra ∈ runAttributesOf text,
      ∃ j, j + 2 ≤ text.text.length ∧ ra.fac = resolveFAC text j := by
  intro ra hra
  by_cases hn : 2 ≤ text.text.length
  · obtain ⟨m, hm⟩ : ∃ m, text.text.length = m + 2 := ⟨text.text.length - 2, by omega⟩
    rw [runAttributesOf_eq text m hm] at hra
    have := ataux_fac_mem text (m + 2) (m + 1) 0 (resolveFAC text 0) (by omega) (by omega)
      (by congr 1; omega) ra hra
    rw [hm]
    exact this
  · rw [runAttributesOf_short text (by omega)] at hra
    cases hra

theorem runAttributesOf_uniform (text : AttrString) (hn : 2 ≤ text.text.length)
    (huni : ∀ j, j < text.text.length → resolveFAC text j = resolveFAC text 0) :
    runAttributesOf text = [⟨resolveFAC text 0, 0, text.text.length⟩] := by
  obtain ⟨m, hm⟩ : ∃ m, text.text.length = m + 2 := ⟨text.text.length - 2, by omega⟩
  rw [runAttributesOf_eq text m hm, hm]
  exact ataux_uniform text (m + 2) (by rw [← hm]; exact huni) (m + 1) 0 (by omega) (by omega)

/-! ### Tokenization: lemmas about `appendTextLoop` -/

theorem getCharacterType_cases (c : Char) :
    getCharacterType c = 0 ∨ getCharacterType c = 1 ∨ getCharacterType c = 2 := by
  rw [getCharacterType]
  split_ifs <;> simp

theorem class0_ws {c : Char} (h : getCharacterType c = 0) : juceIsWhitespace c = true := by
  rw [getCharacterType] at h
  split_ifs at h with h1 h2
  rcases h1 with h1 | h1 <;> subst h1 <;> decide

theorem class2_ws {c : Char} (h : getCharacterType c = 2) : juceIsWhitespace c = true := by
  by_cases h1 : c = '\r' ∨ c = '\n'
  · rw [getCharacterType, if_pos h1] at h
    exact absurd h (by decide)
  · rw [getCharacterType, if_neg h1] at h
    by_cases h2 : juceIsWhitespace c = true
    · exact h2
    · rw [if_neg h2] at h
      exact absurd h (by decide)

theorem class1_not_ws {c : Char} (h : getCharacterType c = 1) : juceIsWhitespace c = false := by
  by_cases h1 : c = '\r' ∨ c = '\n'
  · rw [getCharacterType, if_pos h1] at h
    exact absurd h (by decide)
  · rw [getCharacterType, if_neg h1] at h
    by_cases h2 : juceIsWhitespace c = true
    · rw [if_pos h2] at h
      exact absurd h (by decide)
    · simpa using h2

theorem class0_iff {c : Char} : getCharacterType c = 0 ↔ (c = '\r' ∨ c = '\n') := by
  rw [getCharacterType]
  split_ifs with h1 h2 <;> simp [h1]

theorem absorbCRLF_concat (ch : Char) (rest : List Char) :
    (absorbCRLF ch rest).1 ++ (absorbCRLF ch rest).2 = ch :: rest := by
  cases rest with
  | nil => rfl
  | cons c2 rest2 =>
    rw [absorbCRLF]
    split_ifs with h
    · simp [h.2]
    · rfl

theorem absorbCRLF_len (ch : Char) (rest : List Char) :
    (absorbCRLF ch rest).2.length ≤ rest.length := by
  cases rest with
  | nil => simp [absorbCRLF]
  | cons c2 rest2 =>
    rw [absorbCRLF]
    split_ifs <;> simp

theorem absorbCRLF_plain (ch : Char) (rest : List Char)
    (h : ¬(ch = '\r' ∧ rest.head? = some '\n')) :
    absorbCRLF ch rest = ([ch], rest) := by
  cases rest with
  | nil => rfl
  | cons c2 rest2 =>
    rw [absorbCRLF, if_neg]
    intro hc
    exact h ⟨hc.1, by rw [hc.2]; rfl⟩

theorem appendTextLoop_join (P : FontProvider) (f : Font) (col : Colour) :
    ∀ (fuel : Nat) (rem cur : List Char) (lt : Nat), rem.length < fuel →
      ((appendTextLoop P f col fuel rem cur lt).map Token.text).flatten = cur ++ rem := by
  intro fuel
  induction fuel with
  | zero => intro rem cur lt hlen; omega
  | succ fl ih =>
    intro rem cur lt hlen
    cases rem with
    | nil =>
      simp only [appendTextLoop]
      by_cases hcur : cur = []
      · simp [hcur]
      · rw [if_neg hcur]
        simp [mkTok]
    | cons ch rest =>
      simp only [appendTextLoop]
      by_cases hcl : getCharacterType ch = 0 ∨ getCharacterType ch ≠ lt
      · rw [if_pos hcl]
        have hlen2 : (absorbCRLF ch rest).2.length < fl := by
          have := absorbCRLF_len ch rest
          simp only [List.length_cons] at hlen
          omega
        rw [List.map_append, List.flatten_append, ih _ _ _ hlen2, absorbCRLF_concat]
        by_cases hcur : cur = []
        · simp [hcur]
        · rw [if_neg hcur]
          simp [mkTok]
      · rw [if_neg hcl]
        rw [ih _ _ _ (by simp only [List.length_cons] at hlen; simpa using hlen)]
        simp

theorem appendTextLoop_style (P : FontProvider) (f : Font) (col : Colour) :
    ∀ (fuel : Nat) (rem cur : List Char) (lt : Nat),
      ∀ t ∈ appendTextLoop P f col fuel rem cur lt, t.font = f ∧ t.colour = col := by
  intro fuel
  induction fuel with
  | zero => intro rem cur lt t ht; cases ht
  | succ fl ih =>
    intro rem cur lt t ht
    cases rem with
    | nil =>
      simp only [appendTextLoop] at ht
      split_ifs at ht with h
      · cases ht
      · rcases List.mem_singleton.mp ht with rfl
        exact ⟨rfl, rfl⟩
    | cons ch rest =>
      simp only [appendTextLoop] at ht
      split_ifs at ht with h1 h2
      · rcases List.mem_append.mp ht with hh | hh
        · cases hh
        · exact ih _ _ _ t hh
      · rcases List.mem_append.mp ht with hh | hh
        · rcases List.mem_singleton.mp hh with rfl
          exact ⟨rfl, rfl⟩
        · exact ih _ _ _ t hh
      · exact ih _ _ _ t ht

theorem flush_tokOK (P : FontProvider) (f : Font) (col : Colour) (cur : List Char) (lt : Nat)
    (ws : Bool) (hcur : cur ≠ [])
    (hclass : ∀ c ∈ cur, getCharacterType c = lt)
    (hlen : (lt = 2 ∨ lt = 0) → cur.length ≤ 1)
    (hws : ws = decide (lt = 2) ∨ ws = decide (lt = 2 ∨ lt = 0)) :
    tokOK (mkTok P f col cur ws) := by
  obtain ⟨c0, cur', rfl⟩ : ∃ c0 cur', cur = c0 :: cur' := by
    cases cur with
    | nil => exact absurd rfl hcur
    | cons a b => exact ⟨a, b, rfl⟩
  have hc0 := hclass c0 (by simp)
  rcases getCharacterType_cases c0 with h0 | h1 | h2
  · rw [h0] at hc0
    subst hc0
    refine ⟨by simp [mkTok], ?_, ?_⟩
    · intro _
      constructor
      · have := hlen (Or.inr rfl)
        show (c0 :: cur').length = 1
        simp only [List.length_cons] at this ⊢
        omega
      · intro c hc
        exact class0_ws (hclass c hc)
    · intro hnw
      exfalso
      apply hnw
      right
      show decide ('\n' ∈ c0 :: cur' ∨ '\x0d' ∈ c0 :: cur') = true
      rw [decide_eq_true_iff]
      rcases class0_iff.mp h0 with h | h
      · right; rw [← h]; exact List.mem_cons_self c0 cur'
      · left; rw [← h]; exact List.mem_cons_self c0 cur'
  · rw [h1] at hc0
    subst hc0
    have hwsf : ws = false := by
      rcases hws with rfl | rfl <;> rfl
    subst hwsf
    refine ⟨by simp [mkTok], ?_, ?_⟩
    · intro hwst
      exfalso
      rcases hwst with hw | hw
      · exact absurd hw (by simp [mkTok])
      · rw [show (mkTok P f col (c0 :: cur') false).isNewLine =
          decide ('\n' ∈ c0 :: cur' ∨ '\x0d' ∈ c0 :: cur') from rfl, decide_eq_true_iff] at hw
        rcases hw with hw | hw
        · exact absurd (hclass _ hw) (by decide)
        · exact absurd (hclass _ hw) (by decide)
    · intro _ c hc
      exact class1_not_ws (hclass c hc)
  · rw [h2] at hc0
    subst hc0
    refine ⟨by simp [mkTok], ?_, ?_⟩
    · intro _
      constructor
      · have := hlen (Or.inl rfl)
        show (c0 :: cur').length = 1
        simp only [List.length_cons] at this ⊢
        omega
      · intro c hc
        exact class2_ws (hclass c hc)
    · intro hnw
      exfalso
      apply hnw
      left
      show ws = true
      rcases hws with rfl | rfl <;> rfl

theorem appendTextLoop_tokOK_rec (P : FontProvider) (f : Font) (col : Colour) (fl : Nat)
    (ch : Char) (rest cur : List Char) (lt : Nat)
    (ih : ∀ (rem cur : List Char) (lt : Nat), rem.length < fl →
      List.Chain' (fun a b => ¬(juceIsWhitespace a = true ∧ juceIsWhitespace b = true))
        (cur ++ rem) →
      (∀ c ∈ cur, getCharacterType c = lt) →
      ((lt = 2 ∨ lt = 0) → cur.length ≤ 1) →
      ∀ t ∈ appendTextLoop P f col fl rem cur lt, tokOK t)
    (hlen : (ch :: rest).length < fl + 1)
    (hchain : List.Chain'
      (fun a b => ¬(juceIsWhitespace a = true ∧ juceIsWhitespace b = true)) (cur ++ ch :: rest))
    (hchain2 : List.Chain'
      (fun a b => ¬(juceIsWhitespace a = true ∧ juceIsWhitespace b = true)) (ch :: rest))
    (hclass : ∀ c ∈ cur, getCharacterType c = lt)
    (t : Token)
    (ht : t ∈ appendTextLoop P f col fl (absorbCRLF ch rest).2 (absorbCRLF ch rest).1
      (getCharacterType ch)) : tokOK t := by
  by_cases habs : ch = '\r' ∧ rest.head? = some '\n'
  · exfalso
    obtain ⟨rfl, hh⟩ := habs
    obtain ⟨r2, rfl⟩ : ∃ r2, rest = '\n' :: r2 := by
      cases rest with
      | nil => cases hh
      | cons a b =>
        simp only [List.head?_cons, Option.some.injEq] at hh
        exact ⟨b, by rw [hh]⟩
    have := List.chain'_cons.mp hchain2
    exact this.1 ⟨by decide, by decide⟩
  · rw [absorbCRLF_plain ch rest habs] at ht
    refine ih rest [ch] (getCharacterType ch)
      (by simp only [List.length_cons] at hlen; omega)
      (by simpa using hchain2) ?_ (by simp) t ht
    intro c hc
    rcases List.mem_singleton.mp hc with rfl
    rfl

theorem appendTextLoop_tokOK (P : FontProvider) (f : Font) (col : Colour) :
    ∀ (fuel : Nat) (rem cur : List Char) (lt : Nat), rem.length < fuel →
      List.Chain' (fun a b => ¬(juceIsWhitespace a = true ∧ juceIsWhitespace b = true))
        (cur ++ rem) →
      (∀ c ∈ cur, getCharacterType c = lt) →
      ((lt = 2 ∨ lt = 0) → cur.length ≤ 1) →
      ∀ t ∈ appendTextLoop P f col fuel rem cur lt, tokOK t := by
  intro fuel
  induction fuel with
  | zero => intro rem cur lt hlen; omega
  | succ fl ih =>
    intro rem cur lt hlen hchain hclass hclen t ht
    cases rem with
    | nil =>
      simp only [appendTextLoop] at ht
      split_ifs at ht with hc
      · cases ht
      · rcases List.mem_singleton.mp ht with rfl
        exact flush_tokOK P f col cur lt _ hc hclass hclen (Or.inl rfl)
    | cons ch rest =>
      have hchain2 : List.Chain'
          (fun a b => ¬(juceIsWhitespace a = true ∧ juceIsWhitespace b = true)) (ch :: rest) :=
        (List.chain'_append.mp hchain).2.1
      simp only [appendTextLoop] at ht
      split_ifs at ht with h1 h2
      · -- flush branch with empty cur: only the recursive part
        simp only [h2, List.nil_append] at ht
        rcases ht with ht
        exact appendTextLoop_tokOK_rec P f col fl ch rest cur lt ih hlen hchain hchain2 hclass t ht
      · rcases List.mem_append.mp ht with hh | hh
        · rcases List.mem_singleton.mp hh with rfl
          exact flush_tokOK P f col cur lt _ h2 hclass hclen (Or.inr rfl)
        · exact appendTextLoop_tokOK_rec P f col fl ch rest cur lt ih hlen hchain hchain2 hclass t hh
      · -- merge branch
        push_neg at h1
        obtain ⟨h1a, h1b⟩ := h1
        refine ih rest (cur ++ [ch]) (getCharacterType ch)
          (by simp only [List.length_cons] at hlen; omega)
          (by rwa [List.append_assoc]) ?_ ?_ t ht
        · intro c hc
          rcases List.mem_append.mp hc with hc | hc
          · rw [hclass c hc, h1b]
          · rcases List.mem_singleton.mp hc with rfl
            rfl
        · intro hct
          rcases hct with hct | hct
          · -- class 2 merge: cur must be empty, else two adjacent whitespace
            by_cases hcur : cur = []
            · simp [hcur]
            · exfalso
              obtain ⟨c0, cur', rfl⟩ : ∃ c0 cur', cur = c0 :: cur' := by
                cases cur with
                | nil => exact absurd rfl hcur
                | cons a b => exact ⟨a, b, rfl⟩
              have hlen1 : (c0 :: cur').length ≤ 1 := hclen (Or.inl (h1b.symm.trans hct))
              have hcur' : cur' = [] := by
                simp only [List.length_cons] at hlen1
                exact List.length_eq_zero.mp (by omega)
              subst hcur'
              have hrel := (List.chain'_append.mp hchain).2.2 c0 (by rfl) ch (by rfl)
              apply hrel
              constructor
              · exact class2_ws (by rw [hclass c0 (by simp)]; exact h1b.symm.trans hct)
              · exact class2_ws hct
          · exact absurd hct h1a
theorem trimEnd_nil_of_all_ws (s : List Char) (h : ∀ c ∈ s, juceIsWhitespace c = true) :
    trimEnd s = [] := by
  rw [trimEnd]
  have hd : s.reverse.dropWhile juceIsWhitespace = [] := by
    rw [List.dropWhile_eq_nil_iff]
    intro x hx
    exact h x (List.mem_reverse.mp hx)
  rw [hd]
  rfl

theorem trimEnd_self_of_no_ws (s : List Char) (h : ∀ c ∈ s, juceIsWhitespace c = false) :
    trimEnd s = s := by
  rw [trimEnd]
  have hd : s.reverse.dropWhile juceIsWhitespace = s.reverse := by
    rw [List.dropWhile_eq_self_iff]
    intro hl hws
    have hmem : s.reverse.get ⟨0, hl⟩ ∈ s.reverse := s.reverse.get_mem _ hl
    rw [h _ (List.mem_reverse.mp hmem)] at hws
    cases hws
  rw [hd, List.reverse_reverse]

theorem contribP_eq_len (P : FontProvider) (hP : OneGlyphPerChar P) (t : Token)
    (ht : tokOK t) : contribP P t = t.text.length := by
  obtain ⟨hne, hws, hnws⟩ := ht
  rw [contribP, hP]
  by_cases hw : (t.isWhitespace || t.isNewLine) = true
  · have hwst : wsTok t := by
      rcases Bool.or_eq_true_iff.mp hw with h | h
      · exact Or.inl h
      · exact Or.inr h
    obtain ⟨hlen1, hall⟩ := hws hwst
    rw [trimEnd_nil_of_all_ws _ hall, if_pos hw]
    simp [hlen1]
  · have hnwst : ¬ wsTok t := by
      intro hwst
      rcases hwst with h | h <;> simp [h] at hw
    rw [trimEnd_self_of_no_ws _ (hnws hnwst), if_neg hw]
    simp

theorem totalContrib_eq_len (P : FontProvider) (hP : OneGlyphPerChar P) :
    ∀ (ts : List Token), (∀ t ∈ ts, tokOK t) →
      totalContrib P ts = ((ts.map Token.text).flatten).length := by
  intro ts
  induction ts with
  | nil => intro _; rfl
  | cons t rest ih =>
    intro h
    simp only [totalContrib, List.map_cons, List.sum_cons, List.flatten_cons,
      List.length_append]
    rw [contribP_eq_len P hP t (h t (by simp))]
    have := ih fun t ht => h t (by simp [ht])
    rw [totalContrib] at this
    rw [this]

theorem sum_flatMap_nat {α : Type} (g : α → List Nat) :
    ∀ (l : List α), (l.flatMap g).sum = (l.map fun a => (g a).sum).sum := by
  intro l
  induction l with
  | nil => rfl
  | cons a rest ih =>
    simp only [List.flatMap_cons, List.sum_append, List.map_cons, List.sum_cons, ih]

theorem appendTextTokens_total (P : FontProvider) (hP : OneGlyphPerChar P) (s : List Char)
    (f : Font) (col : Colour) (hchain : noAdjWS s) :
    totalContrib P (appendTextTokens P s f col) = s.length := by
  have hOK := appendTextLoop_tokOK P f col (s.length + 1) s [] 0 (by omega)
    (by simpa [noAdjWS] using hchain) (by simp) (by simp)
  have hjoin := appendTextLoop_join P f col (s.length + 1) s [] 0 (by omega)
  rw [appendTextTokens, totalContrib_eq_len P hP _ hOK, hjoin]
  simp

theorem appendTextTokens_tokOK (P : FontProvider) (s : List Char)
    (f : Font) (col : Colour) (hchain : noAdjWS s) :
    ∀ t ∈ appendTextTokens P s f col, tokOK t :=
  appendTextLoop_tokOK P f col (s.length + 1) s [] 0 (by omega)
    (by simpa [noAdjWS] using hchain) (by simp) (by simp)

theorem covers_stop_le : ∀ (rs : List (Nat × Nat)) (a b : Nat), covers rs a b →
    ∀ r ∈ rs, r.2 ≤ b := by
  intro rs
  induction rs with
  | nil => intro a b h r hr; cases hr
  | cons r0 rest ih =>
    intro a b h r hr
    obtain ⟨h1, h2, h3⟩ := h
    rcases List.mem_cons.mp hr with rfl | hr
    · exact covers_le _ _ _ h3
    · exact ih _ _ h3 r hr

theorem substr_length (s : List Char) (a b : Nat) (hb : b ≤ s.length) :
    (substr s a b).length = b - a := by
  simp only [substr, List.length_take, List.length_drop]
  omega

theorem noAdjWS_substr (s : List Char) (a b : Nat) (h : noAdjWS s) :
    noAdjWS (substr s a b) := by
  apply List.Chain'.infix h
  refine ⟨s.take a, (s.drop a).drop (b - a), ?_⟩
  rw [List.append_assoc, substr, List.take_append_drop, List.take_append_drop]

theorem tokensOf_total (P : FontProvider) (text : AttrString) (hP : OneGlyphPerChar P)
    (hws : noAdjWS text.text) (hn : 2 ≤ text.text.length) :
    totalContrib P (tokensOf P text) = text.text.length := by
  have hcov := runAttributesOf_covers text hn
  rw [tokensOf, totalContrib, List.map_flatMap, sum_flatMap_nat]
  have heach : ∀ ra ∈ runAttributesOf text,
      ((appendTextTokens P (substr text.text ra.rstart ra.rstop) ra.fac.font
        ra.fac.colour).map (contribP P)).sum = ra.rstop - ra.rstart := by
    intro ra hra
    have hstop : ra.rstop ≤ text.text.length := by
      have := covers_stop_le _ _ _ hcov (ra.rstart, ra.rstop)
        (List.mem_map.mpr ⟨ra, hra, rfl⟩)
      exact this
    have := appendTextTokens_total P hP (substr text.text ra.rstart ra.rstop)
      ra.fac.font ra.fac.colour (noAdjWS_substr _ _ _ hws)
    rw [totalContrib] at this
    rw [this, substr_length _ _ _ hstop]
  rw [List.map_congr_left heach]
  have := covers_sum _ _ _ hcov
  rw [List.map_map] at this
  have heq : ((fun r : Nat × Nat => r.2 - r.1) ∘ fun r : RunAttr => (r.rstart, r.rstop)) =
      fun ra : RunAttr => ra.rstop - ra.rstart := rfl
  rw [heq] at this
  rw [this]
  omega

theorem tokensOf_tokOK (P : FontProvider) (text : AttrString) (hws : noAdjWS text.text) :
    ∀ t ∈ tokensOf P text, tokOK t := by
  intro t ht
  rw [tokensOf] at ht
  obtain ⟨ra, hra, hmem⟩ := List.mem_flatMap.mp ht
  exact appendTextTokens_tokOK P _ _ _ (noAdjWS_substr _ _ _ hws) t hmem

theorem tokensOf_ne_nil (P : FontProvider) (text : AttrString) (hP : OneGlyphPerChar P)
    (hws : noAdjWS text.text) (hn : 2 ≤ text.text.length) :
    tokensOf P text ≠ [] := by
  intro hnil
  have := tokensOf_total P text hP hws hn
  rw [hnil] at this
  rw [totalContrib] at this
  simp at this
  omega

/-! ### Run building: the emitted lines tile the character positions -/

theorem buildStep_none_spec (P : FontProvider) (t : PlacedToken) (st : BSt) :
    (buildStep P t none st).1.cp = st.cp + contribP P t.tok ∧
    ∃ la, (buildStep P t none st).2 =
      some (mkLine la st.lineStart (st.cp + contribP P t.tok)) := by
  rw [buildStep]
  exact ⟨rfl, _, rfl⟩

theorem buildStep_some_spec (P : FontProvider) (t nxt : PlacedToken) (st : BSt) :
    (buildStep P t (some nxt) st).1.cp = st.cp + contribP P t.tok ∧
    (((buildStep P t (some nxt) st).2 = none ∧
      (buildStep P t (some nxt) st).1.lineStart = st.lineStart) ∨
     (∃ la, (buildStep P t (some nxt) st).2 =
        some (mkLine la st.lineStart (st.cp + contribP P t.tok)) ∧
      (buildStep P t (some nxt) st).1.lineStart = st.cp + contribP P t.tok)) := by
  simp only [buildStep]
  split_ifs
  all_goals
    first
      | exact ⟨rfl, Or.inl ⟨rfl, rfl⟩⟩
      | exact ⟨rfl, Or.inr ⟨_, rfl, rfl⟩⟩

theorem mkLine_stringRange (la : LineAcc) (s e : Nat) : (mkLine la s e).stringRange = (s, e) :=
  rfl

theorem totalContrib_cons (P : FontProvider) (x : Token) (xs : List Token) :
    totalContrib P (x :: xs) = contribP P x + totalContrib P xs := by
  simp [totalContrib]

theorem buildAux_cover (P : FontProvider) :
    ∀ (ts : List PlacedToken) (st : BSt), ts ≠ [] → st.lineStart ≤ st.cp →
      covers ((buildAux P ts st).map fun l => l.stringRange) st.lineStart
        (st.cp + totalContrib P (ts.map fun p => p.tok)) := by
  intro ts
  induction ts with
  | nil => intro st h; exact absurd rfl h
  | cons t rest ih =>
    intro st _ hle
    cases rest with
    | nil =>
      obtain ⟨hcp, la, hsnd⟩ := buildStep_none_spec P t st
      show covers (((buildStep P t [].head? st).2.toList ++
        buildAux P [] (buildStep P t [].head? st).1).map fun l => l.stringRange) _ _
      rw [show ([] : List PlacedToken).head? = none from rfl, hsnd]
      show covers [(mkLine la st.lineStart (st.cp + contribP P t.tok)).stringRange] _ _
      rw [mkLine_stringRange]
      refine ⟨rfl, by omega, ?_⟩
      show st.cp + contribP P t.tok = st.cp + totalContrib P ([t].map fun p => p.tok)
      simp [totalContrib]
    | cons next rest2 =>
      obtain ⟨hcp, hcases⟩ := buildStep_some_spec P t next st
      show covers (((buildStep P t (next :: rest2).head? st).2.toList ++
        buildAux P (next :: rest2) (buildStep P t (next :: rest2).head? st).1).map
          fun l => l.stringRange) _ _
      rw [show (next :: rest2).head? = some next from rfl]
      have htot : st.cp + totalContrib P ((t :: next :: rest2).map fun p => p.tok) =
          (st.cp + contribP P t.tok) +
            totalContrib P ((next :: rest2).map fun p => p.tok) := by
        simp [totalContrib]
        omega
      rcases hcases with ⟨hsnd, hls⟩ | ⟨la, hsnd, hls⟩
      · rw [hsnd]
        simp only [Option.toList_none, List.nil_append]
        rw [htot, ← hcp, ← hls]
        exact ih _ (by simp) (by omega)
      · rw [hsnd]
        simp only [Option.toList_some, List.cons_append, List.map_cons, mkLine_stringRange,
          List.nil_append]
        refine ⟨rfl, by omega, ?_⟩
        show covers (List.map (fun l => l.stringRange)
            (buildAux P (next :: rest2) (buildStep P t (some next) st).1))
          (st.cp + contribP P t.tok)
          (st.cp + totalContrib P (t.tok :: next.tok :: List.map (fun p => p.tok) rest2))
        have h2 := ih (buildStep P t (some next) st).1 (by simp) (by omega)
        rw [hls, hcp] at h2
        simp only [List.map_cons] at h2
        rw [totalContrib_cons, ← Nat.add_assoc]
        exact h2

/-! ### The justification and normalisation passes only move origins -/

theorem map_mapIdx_proj {α β : Type} (l : List α) (f : Nat → α → α) (g : α → β)
    (h : ∀ i a, g (f i a) = g a) : (l.mapIdx f).map g = l.map g := by
  apply List.ext_getElem
  · simp
  · intro n h1 h2
    simp only [List.getElem_map, List.getElem_mapIdx]
    exact h n _

theorem justifyLines_map_proj {β : Type} (just : Nat) (totalW : Int)
    (placed : List PlacedToken) (ls : List Line) (g : Line → β)
    (h : ∀ (l : Line) (q : ℚ), g { l with originX := q } = g l) :
    (justifyLines just totalW placed ls).map g = ls.map g := by
  rw [justifyLines]
  split_ifs with hj hc
  · exact map_mapIdx_proj _ _ _ fun i a => h a _
  · exact map_mapIdx_proj _ _ _ fun i a => h a _
  · rfl

theorem recalc_map_proj {β : Type} (text : AttrString) (L : TextLayoutS) (g : Line → β)
    (h : ∀ (l : Line) (q : ℚ), g { l with originX := q } = g l) :
    (recalculateWidthF text L).lines.map g = L.lines.map g := by
  rw [recalculateWidthF]
  split_ifs with hc
  · rfl
  · simp only [List.map_map]
    apply List.map_congr_left
    intro l _
    exact h l _

theorem createLayoutF_map_proj {β : Type} (P : FontProvider) (text : AttrString) (w : ℚ)
    (g : Line → β) (h : ∀ (l : Line) (q : ℚ), g { l with originX := q } = g l) :
    (createLayoutF P text w).lines.map g =
      (buildAux P (layoutRuns (cIntTrunc w) (tokensOf P text)).1 initBSt).map g := by
  rw [createLayoutF, recalc_map_proj text _ g h, createPreNorm]
  exact justifyLines_map_proj _ _ _ _ g h

/-! ### C1: character-offset coverage -/

/-- C1 (amended): for a shaper that emits one glyph per character, a text
of length at least 2 with no two adjacent whitespace characters (so every
whitespace or line-break token is a single character), and any maxWidth,
the lines' stringRanges of the layout built by `createLayout` cover every
offset of `[0, length)` exactly once and nothing else. (As stated the
claim fails: a length-1 text yields no lines at all, and a run of two or
more whitespace characters advances `charPosition` by one slot only,
leaving the trailing offsets uncovered.) -/
theorem layout_covers_offsets (P : FontProvider) (text : AttrString) (w : ℚ)
    (hP : OneGlyphPerChar P) (hws : noAdjWS text.text) (hn : 2 ≤ text.text.length) :
    ∀ k : Nat, countCover ((createLayoutF P text w).lines.map fun l => l.stringRange) k =
      if k < text.text.length then 1 else 0 := by
  intro k
  rw [createLayoutF_map_proj P text w (fun l => l.stringRange) fun l q => rfl]
  have hmap := (layoutRunsAux_spec (cIntTrunc w) (tokensOf P text) 0 0 0 0).1
  have hne : (layoutRunsAux (cIntTrunc w) (tokensOf P text) 0 0 0 0).1 ≠ [] := by
    intro hnil
    have h2 := tokensOf_ne_nil P text hP hws hn
    rw [← hmap, hnil] at h2
    exact h2 rfl
  have hcov := buildAux_cover P (layoutRunsAux (cIntTrunc w) (tokensOf P text) 0 0 0 0).1
    initBSt hne (le_refl 0)
  rw [hmap, tokensOf_total P text hP hws hn] at hcov
  show countCover ((buildAux P (layoutRunsAux (cIntTrunc w) (tokensOf P text) 0 0 0 0).1
    initBSt).map fun l => l.stringRange) k = if k < text.text.length then 1 else 0
  rw [covers_count _ _ _ k hcov]
  simp [initBSt]

/-- Witness for C1 at the two-character text `"ab"`: offset 0 is covered
exactly once. -/
theorem layout_covers_offsets_witness :
    countCover ((createLayoutF unitP textAB 100).lines.map fun l => l.stringRange) 0 = 1 := by
  have h := layout_covers_offsets unitP textAB 100
    (fun f s => by simp [unitP, scaleP]) (by decide) (by decide) 0
  simpa using h

/-- Counterexample to C1 as stated: the text `"a  b"` (two adjacent
spaces) is non-empty, every token fits in maxWidth 100, yet offset 3 of
`[0, 4)` is covered by no line's stringRange — the two-space token
advances `charPosition` by a single slot. -/
theorem layout_coverage_gap :
    textAAB.text.length = 4 ∧
    (∀ t ∈ tokensOf unitP textAAB, t.width ≤ 100) ∧
    countCover ((createLayoutF unitP textAAB 100).lines.map fun l => l.stringRange) 3 = 0 := by
  refine ⟨by decide, by decide, by decide⟩

/-! ### C10: the final style range swallows the last character -/

theorem appendTextTokens_style (P : FontProvider) (s : List Char) (f : Font) (col : Colour) :
    ∀ t ∈ appendTextTokens P s f col, t.font = f ∧ t.colour = col :=
  appendTextLoop_style P f col (s.length + 1) s [] 0

theorem createLayoutF_lines_nil (P : FontProvider) (text : AttrString) (w : ℚ)
    (h : tokensOf P text = []) : (createLayoutF P text w).lines = [] := by
  rw [createLayoutF, createPreNorm, h]
  show (recalculateWidthF text
    ⟨justifyLines text.justification (cIntTrunc w) (layoutRuns (cIntTrunc w) []).1
      (buildAux P (layoutRuns (cIntTrunc w) []).1 initBSt), w, text.justification⟩).lines = []
  rw [show (layoutRuns (cIntTrunc w) []).1 = [] from rfl]
  rw [show buildAux P [] initBSt = [] from rfl]
  rw [show justifyLines text.justification (cIntTrunc w) [] [] = [] by
    rw [justifyLines]; split_ifs <;> rfl]
  rw [recalculateWidthF]
  rw [if_pos (Or.inl rfl)]

/-- C10: for a text of length at least 2, `addTextRuns` always emits a
final style range stopping at the end of the string but carrying the
effective font-and-colour of the second-to-last character; every token
ever produced carries the effective style of some character at index at
most length − 2, so a last character whose style differs from its
predecessor's is tokenized and laid out with the predecessor's font and
colour. For a text of length exactly 1 no style range is emitted at all
and the resulting layout has zero lines. -/
theorem final_range_styles :
    (∀ text : AttrString, 2 ≤ text.text.length →
      runAttributesOf text ≠ [] ∧
      ∃ rs', (runAttributesOf text).getLast? =
        some ⟨resolveFAC text (text.text.length - 2), rs', text.text.length⟩) ∧
    (∀ (P : FontProvider) (text : AttrString) (w : ℚ), text.text.length = 1 →
      runAttributesOf text = [] ∧ (createLayoutF P text w).lines = []) ∧
    (∀ (P : FontProvider) (text : AttrString), ∀ t ∈ tokensOf P text,
      ∃ j, j + 2 ≤ text.text.length ∧ t.font = (resolveFAC text j).font ∧
        t.colour = (resolveFAC text j).colour) := by
  refine ⟨fun text hn => runAttributesOf_last text hn, ?_, ?_⟩
  · intro P text w h1
    have hra : runAttributesOf text = [] := runAttributesOf_short text (by omega)
    refine ⟨hra, createLayoutF_lines_nil P text w ?_⟩
    rw [tokensOf, hra]
    rfl
  · intro P text t ht
    rw [tokensOf] at ht
    obtain ⟨ra, hra, hmem⟩ := List.mem_flatMap.mp ht
    obtain ⟨j, hj, hfac⟩ := runAttributesOf_fac_mem text ra hra
    obtain ⟨hf, hc⟩ := appendTextTokens_style P _ _ _ t hmem
    exact ⟨j, hj, by rw [hf, hfac], by rw [hc, hfac]⟩

/-- Witness for C10: the text `"abc"` whose last character alone carries
font 1 still gets a single final range ending at 3 with the default style
of character 1, and the one-character text `"a"` yields an empty layout. -/
theorem final_range_styles_witness :
    (runAttributesOf textStyled ≠ []) ∧ (createLayoutF unitP textA 100).lines = [] :=
  ⟨(final_range_styles.1 textStyled (by decide)).1,
   (final_range_styles.2.1 unitP textA 100 (by decide)).2⟩

/-! ### C4: single-style, single-line round trip -/

theorem appendTextLoop_shape (P : FontProvider) (f : Font) (col : Colour) :
    ∀ (fuel : Nat) (rem cur : List Char) (lt : Nat),
      ∀ t ∈ appendTextLoop P f col fuel rem cur lt, ∃ s ws, t = mkTok P f col s ws := by
  intro fuel
  induction fuel with
  | zero => intro rem cur lt t ht; cases ht
  | succ fl ih =>
    intro rem cur lt t ht
    cases rem with
    | nil =>
      simp only [appendTextLoop] at ht
      split_ifs at ht with h
      · cases ht
      · rcases List.mem_singleton.mp ht with rfl
        exact ⟨cur, _, rfl⟩
    | cons ch rest =>
      simp only [appendTextLoop] at ht
      split_ifs at ht with h1 h2
      · rcases List.mem_append.mp ht with hh | hh
        · cases hh
        · exact ih _ _ _ t hh
      · rcases List.mem_append.mp ht with hh | hh
        · rcases List.mem_singleton.mp hh with rfl
          exact ⟨cur, _, rfl⟩
        · exact ih _ _ _ t hh
      · exact ih _ _ _ t ht

theorem layoutRunsAux_one_line (maxW : Int) :
    ∀ (ts : List Token) (line : Nat) (x y hh : Int),
      (∀ t ∈ ts, t.isNewLine = false ∧ 0 ≤ t.width) →
      x + (ts.map Token.width).sum ≤ maxW →
      ∀ p ∈ (layoutRunsAux maxW ts line x y hh).1, p.line = line := by
  intro ts
  induction ts with
  | nil => intro line x y hh _ _ p hp; cases hp
  | cons t rest ih =>
    intro line x y hh hts hsum p hp
    cases rest with
    | nil =>
      rcases List.mem_singleton.mp hp with rfl
      rfl
    | cons next rest2 =>
      have hnl := (hts t (by simp)).1
      have hnb : (t.isNewLine || (!next.isWhitespace &&
          decide (maxW < x + t.width + next.width))) = false := by
        rw [hnl]
        simp only [Bool.false_or, Bool.and_eq_false_iff]
        right
        rw [decide_eq_false_iff_not, not_lt]
        have hrest : 0 ≤ (rest2.map Token.width).sum :=
          List.sum_nonneg fun a ha => by
            obtain ⟨tt, htt, rfl⟩ := List.mem_map.mp ha
            exact (hts tt (by simp [htt])).2
        simp only [List.map_cons, List.sum_cons] at hsum
        omega
      have hres : layoutRunsAux maxW (t :: next :: rest2) line x y hh =
          (⟨t, x, y, line⟩ :: (layoutRunsAux maxW (next :: rest2) line (x + t.width) y
            (max hh t.height)).1,
           (layoutRunsAux maxW (next :: rest2) line (x + t.width) y (max hh t.height)).2) := by
        simp only [layoutRunsAux]
        rw [if_neg (by rw [hnb]; exact Bool.false_ne_true)]
      rw [hres] at hp
      rcases List.mem_cons.mp hp with rfl | hp
      · rfl
      · refine ih line (x + t.width) y (max hh t.height)
          (fun tt htt => hts tt (by simp [htt])) ?_ p hp
        simp only [List.map_cons, List.sum_cons] at hsum ⊢
        omega

theorem buildStep_nochange (P : FontProvider) (t nxt : PlacedToken) (st : BSt)
    (hf : t.tok.font = nxt.tok.font) (hc : t.tok.colour = nxt.tok.colour)
    (hl : t.line = nxt.line) :
    buildStep P t (some nxt) st =
      ({ st with cp := st.cp + contribP P t.tok,
                 curRun := some ((st.curRun.getD []) ++ glyphsFor P t),
                 curLine := some (if st.needOrigin ∧ glyphsFor P t ≠ [] then
                   setOrigin (st.curLine.getD {}) (t.x : ℚ) ((t.y : ℚ) + P.ascent t.tok.font)
                  else st.curLine.getD {}),
                 needOrigin := st.needOrigin && decide (glyphsFor P t = []) }, none) := by
  simp only [buildStep]
  rw [if_neg (by push_neg; exact ⟨hf, hc⟩), if_neg (by push_neg; exact hl)]

theorem laWith_runs (la : LineAcc) (c : Prop) [Decidable c] (a b : ℚ) :
    (if c then setOrigin la a b else la).runs = la.runs := by
  split_ifs <;> rfl

theorem buildAux_single (P : FontProvider) (f : Font) (col : Colour) (li : Nat) :
    ∀ (ts : List PlacedToken) (st : BSt),
      ts ≠ [] →
      (∀ p ∈ ts, p.tok.font = f ∧ p.tok.colour = col ∧ p.line = li) →
      ∃ la gl, buildAux P ts st =
        [mkLine la st.lineStart (st.cp + totalContrib P (ts.map fun p => p.tok))] ∧
        la.runs = (st.curLine.getD {}).runs ++
          [⟨f, col, gl, (st.runStart, st.cp + totalContrib P (ts.map fun p => p.tok))⟩] := by
  intro ts
  induction ts with
  | nil => intro st h; exact absurd rfl h
  | cons t rest ih =>
    intro st _ hall
    obtain ⟨hf, hc, hli⟩ := hall t (by simp)
    cases rest with
    | nil =>
      rw [show st.cp + totalContrib P ([t].map fun p => p.tok) = st.cp + contribP P t.tok
        by simp [totalContrib]]
      refine ⟨_, (st.curRun.getD []) ++ glyphsFor P t,
        show ((buildStep P t none st).2.toList ++ buildAux P [] (buildStep P t none st).1) =
          [mkLine (addRunF P
            (if st.needOrigin ∧ glyphsFor P t ≠ [] then
              setOrigin (st.curLine.getD {}) (t.x : ℚ) ((t.y : ℚ) + P.ascent t.tok.font)
             else st.curLine.getD {})
            ((st.curRun.getD []) ++ glyphsFor P t) t.tok st.runStart
            (st.cp + contribP P t.tok)) st.lineStart (st.cp + contribP P t.tok)] from rfl, ?_⟩
      rw [addRunF]
      show (if st.needOrigin ∧ glyphsFor P t ≠ [] then
          setOrigin (st.curLine.getD {}) (t.x : ℚ) ((t.y : ℚ) + P.ascent t.tok.font)
         else st.curLine.getD {}).runs ++ [⟨t.tok.font, t.tok.colour,
           (st.curRun.getD []) ++ glyphsFor P t, (st.runStart, st.cp + contribP P t.tok)⟩] = _
      rw [laWith_runs, hf, hc]
    | cons next rest2 =>
      obtain ⟨hf2, hc2, hl2⟩ := hall next (by simp)
      have hstep := buildStep_nochange P t next st (by rw [hf, hf2]) (by rw [hc, hc2])
        (by rw [hli, hl2])
      obtain ⟨la, gl, heq, hruns⟩ := ih
        ({ st with cp := st.cp + contribP P t.tok,
                   curRun := some ((st.curRun.getD []) ++ glyphsFor P t),
                   curLine := some (if st.needOrigin ∧ glyphsFor P t ≠ [] then
                     setOrigin (st.curLine.getD {}) (t.x : ℚ) ((t.y : ℚ) + P.ascent t.tok.font)
                    else st.curLine.getD {}),
                   needOrigin := st.needOrigin && decide (glyphsFor P t = []) })
        (by simp) (fun p hp => hall p (by simp [hp]))
      dsimp only at heq hruns
      simp only [Option.getD_some] at hruns
      have harith : st.cp + contribP P t.tok +
          totalContrib P ((next :: rest2).map fun p => p.tok) =
          st.cp + totalContrib P ((t :: next :: rest2).map fun p => p.tok) := by
        simp only [List.map_cons, totalContrib, List.sum_cons]
        omega
      refine ⟨la, gl, ?_, ?_⟩
      · show ((buildStep P t (next :: rest2).head? st).2.toList ++
          buildAux P (next :: rest2) (buildStep P t (next :: rest2).head? st).1) = _
        rw [show (next :: rest2).head? = some next from rfl, hstep]
        simp only [Option.toList_none, List.nil_append]
        rw [heq, harith]
      · rw [hruns, laWith_runs, harith]

theorem substr_all (s : List Char) : substr s 0 s.length = s := by
  simp [substr]

/-- C4 (amended): for a shaper with one glyph per character, nonnegative
measured widths, a text of length at least 2 with uniform effective style,
no line-break characters and no two adjacent whitespace characters, whose
tokens' total width is less than the (truncated) maxWidth, `createLayout`
produces exactly one line holding exactly one run, both covering
`[0, length)`, with the uniform effective font and colour (the defaults
when unattributed). (As stated the claim fails for length-1 strings, which
produce no lines at all.) -/
theorem single_style_round_trip (P : FontProvider) (text : AttrString) (w : ℚ)
    (hP : OneGlyphPerChar P) (hws : noAdjWS text.text) (hn : 2 ≤ text.text.length)
    (hnl : ∀ c ∈ text.text, getCharacterType c ≠ 0)
    (huni : ∀ i, i < text.text.length → resolveFAC text i = resolveFAC text 0)
    (hpos : ∀ (fo : Font) (s : List Char), 0 ≤ P.stringWidth fo s)
    (hsum : ((tokensOf P text).map Token.width).sum < cIntTrunc w) :
    (createLayoutF P text w).lines.map
        (fun l => (l.stringRange, l.runs.map fun r => (r.font, r.colour, r.stringRange))) =
      [((0, text.text.length),
        [((resolveFAC text 0).font, (resolveFAC text 0).colour, (0, text.text.length))])] := by
  have htoks : tokensOf P text = appendTextTokens P text.text
      (resolveFAC text 0).font (resolveFAC text 0).colour := by
    rw [tokensOf, runAttributesOf_uniform text hn huni]
    simp only [List.flatMap_cons, List.flatMap_nil, List.append_nil]
    rw [substr_all]
  have hjoin := appendTextLoop_join P (resolveFAC text 0).font (resolveFAC text 0).colour
    (text.text.length + 1) text.text [] 0 (by omega)
  have hshape := appendTextLoop_shape P (resolveFAC text 0).font (resolveFAC text 0).colour
    (text.text.length + 1) text.text [] 0
  have htokchars : ∀ t ∈ tokensOf P text, ∀ c ∈ t.text, c ∈ text.text := by
    intro t ht c hc
    rw [htoks] at ht
    have : c ∈ ((appendTextTokens P text.text (resolveFAC text 0).font
        (resolveFAC text 0).colour).map Token.text).flatten :=
      List.mem_flatten.mpr ⟨t.text, List.mem_map_of_mem _ ht, hc⟩
    rw [appendTextTokens] at this
    rw [hjoin] at this
    simpa using this
  have htokfacts : ∀ t ∈ tokensOf P text, t.isNewLine = false ∧ 0 ≤ t.width := by
    intro t ht
    have hchars := htokchars t ht
    rw [htoks] at ht
    obtain ⟨s, wsx, rfl⟩ := hshape t ht
    constructor
    · show decide ('\n' ∈ s ∨ '\x0d' ∈ s) = false
      apply decide_eq_false
      intro hcmem
      have hcm : ∃ c, c ∈ s ∧ (c = '\r' ∨ c = '\n') := by
        rcases hcmem with h | h
        · exact ⟨'\n', h, Or.inr rfl⟩
        · exact ⟨'\r', h, Or.inl rfl⟩
      obtain ⟨c, hcs, hcc⟩ := hcm
      have := hnl c (hchars c hcs)
      exact this (class0_iff.mpr hcc)
    · exact hpos _ _
  have hallP : ∀ p ∈ (layoutRunsAux (cIntTrunc w) (tokensOf P text) 0 0 0 0).1,
      p.tok.font = (resolveFAC text 0).font ∧ p.tok.colour = (resolveFAC text 0).colour ∧
        p.line = 0 := by
    intro p hp
    have hmapP := (layoutRunsAux_spec (cIntTrunc w) (tokensOf P text) 0 0 0 0).1
    have hptok : p.tok ∈ tokensOf P text := by
      rw [← hmapP]
      exact List.mem_map_of_mem _ hp
    have hstyle : p.tok.font = (resolveFAC text 0).font ∧
        p.tok.colour = (resolveFAC text 0).colour := by
      rw [htoks] at hptok
      exact appendTextTokens_style P _ _ _ _ hptok
    refine ⟨hstyle.1, hstyle.2, ?_⟩
    refine layoutRunsAux_one_line (cIntTrunc w) (tokensOf P text) 0 0 0 0 htokfacts ?_ p hp
    omega
  have hne : (layoutRunsAux (cIntTrunc w) (tokensOf P text) 0 0 0 0).1 ≠ [] := by
    intro hnil
    have h2 := tokensOf_ne_nil P text hP hws hn
    have hmapP := (layoutRunsAux_spec (cIntTrunc w) (tokensOf P text) 0 0 0 0).1
    rw [← hmapP, hnil] at h2
    exact h2 rfl
  obtain ⟨la, gl, heq, hruns⟩ := buildAux_single P (resolveFAC text 0).font
    (resolveFAC text 0).colour 0 (layoutRunsAux (cIntTrunc w) (tokensOf P text) 0 0 0 0).1
    initBSt hne hallP
  have hmapP := (layoutRunsAux_spec (cIntTrunc w) (tokensOf P text) 0 0 0 0).1
  rw [hmapP, tokensOf_total P text hP hws hn] at heq hruns
  have hg : ∀ (l : Line) (q : ℚ),
      (({ l with originX := q } : Line).stringRange,
        ({ l with originX := q } : Line).runs.map fun r => (r.font, r.colour, r.stringRange)) =
      (l.stringRange, l.runs.map fun r => (r.font, r.colour, r.stringRange)) :=
    fun l q => rfl
  rw [createLayoutF_map_proj P text w
    (fun l => (l.stringRange, l.runs.map fun r => (r.font, r.colour, r.stringRange))) hg]
  show ((buildAux P (layoutRunsAux (cIntTrunc w) (tokensOf P text) 0 0 0 0).1 initBSt).map
    fun l => (l.stringRange, l.runs.map fun r => (r.font, r.colour, r.stringRange))) = _
  rw [heq]
  simp only [List.map_cons, List.map_nil, mkLine_stringRange]
  rw [show (mkLine la initBSt.lineStart (initBSt.cp + text.text.length)).runs = la.runs from rfl,
    hruns]
  simp [initBSt]

/-- Witness for C4 at the unattributed text `"ab"` with unit widths and
maxWidth 100: one line, one run, range `[0, 2)`, default font and black. -/
theorem single_style_round_trip_witness :
    (createLayoutF unitP textAB 100).lines.map
        (fun l => (l.stringRange, l.runs.map fun r => (r.font, r.colour, r.stringRange))) =
      [((0, 2), [(defaultFont, blackColour, (0, 2))])] := by
  have h := single_style_round_trip unitP textAB 100
    (fun f s => by simp [unitP, scaleP]) (by decide) (by decide)
    (by decide) (fun i _ => rfl)
    (fun fo s => by simp [unitP, scaleP]) (by decide)
  exact h

/-- Counterexample to C4 as stated: the single-character, single-style,
break-free text `"a"`, far narrower than maxWidth 100, produces no line at
all instead of exactly one. -/
theorem single_char_zero_lines :
    textA.text.length = 1 ∧
    ((tokensOf unitP textA).map Token.width).sum < cIntTrunc 100 ∧
    (createLayoutF unitP textA 100).lines = [] := by
  refine ⟨by decide, by decide, by decide⟩

/-! ### C7 helper lemmas: bounds of shifted lines -/

/-- `getLineBoundsX` of a line whose origin x is shifted left by `s`:
both ends of the range shift by `-s`. -/
theorem lineBoundsX_shift (l : Line) (s : ℚ) :
    lineBoundsX { l with originX := l.originX - s } =
      ((lineBoundsX l).1 - s, (lineBoundsX l).2 - s) := by
  rcases h : unionRuns l.runs.reverse none with - | a
  · simp [lineBoundsX, h]
  · simp only [lineBoundsX, h]
    refine Prod.ext ?_ ?_ <;> dsimp <;> ring

/-- The `unionQ` fold of `recalculateWidth` over left-shifted lines
computes the shifted fold. -/
theorem foldl_unionQ_shift (s : ℚ) (xs : List Line) :
    ∀ init : ℚ × ℚ,
      (xs.map fun l => { l with originX := l.originX - s }).foldl
          (fun r l => unionQ r (lineBoundsX l)) (init.1 - s, init.2 - s) =
        ((xs.foldl (fun r l => unionQ r (lineBoundsX l)) init).1 - s,
         (xs.foldl (fun r l => unionQ r (lineBoundsX l)) init).2 - s) := by
  induction xs with
  | nil => intro init; rfl
  | cons x xs ih =>
    intro init
    simp only [List.map_cons, List.foldl_cons]
    have h1 : unionQ (init.1 - s, init.2 - s)
        (lineBoundsX { x with originX := x.originX - s }) =
        ((unionQ init (lineBoundsX x)).1 - s,
         (unionQ init (lineBoundsX x)).2 - s) := by
      rw [lineBoundsX_shift]
      show (min (init.1 - s) ((lineBoundsX x).1 - s),
            max (init.2 - s) ((lineBoundsX x).2 - s)) = _
      rw [min_sub_sub_right, max_sub_sub_right]
      rfl
    rw [h1]
    exact ih (unionQ init (lineBoundsX x))

/-- The scanned bounds of a non-empty list of left-shifted lines are the
original bounds shifted by `-s`. -/
theorem layoutBoundsRange_shift (ls : List Line) (s : ℚ) (h : ls ≠ []) :
    layoutBoundsRange (ls.map fun l => { l with originX := l.originX - s }) =
      ((layoutBoundsRange ls).1 - s, (layoutBoundsRange ls).2 - s) := by
  cases ls with
  | nil => exact absurd rfl h
  | cons l0 rest =>
    show (rest.map fun l => { l with originX := l.originX - s }).reverse.foldl
        (fun r l => unionQ r (lineBoundsX l))
        (lineBoundsX { l0 with originX := l0.originX - s }) = _
    rw [lineBoundsX_shift, ← List.map_reverse]
    exact foldl_unionQ_shift s rest.reverse (lineBoundsX l0)

/-- C7 (amended): the returned layout keeps the wrap width in its width
field only when it has no lines or the text is right-to-left; otherwise
`recalculateWidth` left-normalizes the lines (the scanned horizontal
bounds of the returned layout start at 0) and overwrites the width field
with the scanned bounds' length, discarding the wrap width. -/
theorem width_field_spec (P : FontProvider) (text : AttrString) (w : ℚ) :
    (((createPreNorm P text w).lines = [] ∨
        text.readingDirection = ReadingDirection.rightToLeft) →
      (createLayoutF P text w).width = w) ∧
    ((createPreNorm P text w).lines ≠ [] →
      text.readingDirection ≠ ReadingDirection.rightToLeft →
      (layoutBoundsRange (createLayoutF P text w).lines).1 = 0 ∧
      (createLayoutF P text w).width =
        (layoutBoundsRange (createLayoutF P text w).lines).2) := by
  constructor
  · intro hc
    rw [createLayoutF, recalculateWidthF, if_pos hc]
    rfl
  · intro h1 h2
    have hc : ¬ ((createPreNorm P text w).lines = [] ∨
        text.readingDirection = ReadingDirection.rightToLeft) := by
      rintro (h | h)
      · exact h1 h
      · exact h2 h
    rw [createLayoutF, recalculateWidthF, if_neg hc]
    have hshift := layoutBoundsRange_shift (createPreNorm P text w).lines
      (layoutBoundsRange (createPreNorm P text w).lines).1 h1
    constructor
    · show (layoutBoundsRange ((createPreNorm P text w).lines.map fun l =>
          { l with originX :=
              l.originX - (layoutBoundsRange (createPreNorm P text w).lines).1 })).1 = 0
      rw [hshift]
      exact sub_self _
    · show (layoutBoundsRange (createPreNorm P text w).lines).2 -
          (layoutBoundsRange (createPreNorm P text w).lines).1 =
          (layoutBoundsRange ((createPreNorm P text w).lines.map fun l =>
            { l with originX :=
                l.originX - (layoutBoundsRange (createPreNorm P text w).lines).1 })).2
      rw [hshift]

/-- Witness for C7: right-to-left `"ab"` keeps width 100; left-to-right
`"ab"` at wrap width 100 ends with bounds starting at 0 and width equal to
the bounds' end. -/
theorem width_field_spec_witness :
    (createLayoutF unitP textABrtl 100).width = 100 ∧
    (layoutBoundsRange (createLayoutF unitP textAB 100).lines).1 = 0 ∧
    (createLayoutF unitP textAB 100).width =
      (layoutBoundsRange (createLayoutF unitP textAB 100).lines).2 := by
  refine ⟨(width_field_spec unitP textABrtl 100).1 (Or.inr rfl), ?_, ?_⟩
  · exact ((width_field_spec unitP textAB 100).2 (by decide) (by decide)).1
  · exact ((width_field_spec unitP textAB 100).2 (by decide) (by decide)).2

section ConcreteRatEval2

attribute [local semireducible] Rat.add Rat.sub Rat.mul Rat.inv

/-- Counterexample to C7 as stated: for `"ab"` under the unit-width
provider at wrap width 100, the returned layout's width field is 2 (the
lines' normalized extent), not the wrap width 100. -/
theorem width_field_overwritten :
    (createLayoutF unitP textAB 100).width = 2 ∧
    ¬ (createLayoutF unitP textAB 100).width = 100 := by
  constructor
  · decide
  · decide

/-- C6 (amended): with horizontally-centred justification (flag 4),
layout width 200 and a single line of measured width 100, the
justification pass inside `createLayout` shifts the line's origin x by
+50: the pre-normalization layout carries origin 50 where the top-left
layout carries 0, and the shift survives into the returned layout for
right-to-left text, which `recalculateWidth` leaves untouched. -/
theorem centred_shift_spec :
    lineWidthAt (layoutRuns (cIntTrunc 200)
        (tokensOf (scaleP 25) (textABCD 4 ReadingDirection.natural))).1 0 = 100 ∧
    (createPreNorm (scaleP 25) (textABCD 4 ReadingDirection.natural) 200).lines.map
        (fun l => l.originX) = [50] ∧
    (createPreNorm (scaleP 25) (textABCD 9 ReadingDirection.natural) 200).lines.map
        (fun l => l.originX) = [0] ∧
    (createLayoutF (scaleP 25) (textABCD 4 ReadingDirection.rightToLeft) 200).lines.map
        (fun l => l.originX) = [50] := by
  refine ⟨by decide, by decide, by decide, by decide⟩

/-- Counterexample to C6 as stated: in the layout `createLayout` actually
returns, the +50 shift is gone — `recalculateWidth` subtracts the scanned
bounds' start from every origin, so the centred layout and the top-left
layout both end with origin x 0. -/
theorem centred_shift_lost :
    (createLayoutF (scaleP 25) (textABCD 4 ReadingDirection.natural) 200).lines.map
        (fun l => l.originX) = [0] ∧
    (createLayoutF (scaleP 25) (textABCD 9 ReadingDirection.natural) 200).lines.map
        (fun l => l.originX) = [0] := by
  constructor
  · decide
  · decide

end ConcreteRatEval2

end Juce
